import Mathlib

/-
Verification of the GDB Remote Serial Protocol client in
`src/gdb-protocol.ts` (class `GdbProtocol`).

Modelling conventions:
* JS "binary" strings (produced by `Buffer.toString('binary')`) and byte
  buffers are both `List Nat`, one entry per char code / byte (0..255 for
  real wire data).
* Promise-based control flow becomes explicit state passing: the resolver
  queue `packetResolvers` is a `List Nat` of request identities (head =
  oldest), resolutions are recorded as explicit events.
* Machine arithmetic: JS `x & 0xFF` is `Nat.land`, `x >>> 0` is the
  mathematical residue mod 2^32 of the integer argument.
-/

namespace GdbProtocol

/-- Character-class test for `[0-9a-fA-F]`, on char codes. -/
def isHexDigitB (b : Nat) : Bool :=
  (48 ≤ b && b ≤ 57) || (97 ≤ b && b ≤ 102) || (65 ≤ b && b ≤ 70)

/-- Numeric value of one hex-digit char code (callers guard with
`isHexDigitB`; other codes map to 0). -/
def hexDigitVal (b : Nat) : Nat :=
  if 48 ≤ b && b ≤ 57 then b - 48
  else if 97 ≤ b && b ≤ 102 then b - 87
  else if 65 ≤ b && b ≤ 70 then b - 55
  else 0

/-- Big-endian numeric value of a hex-digit string. -/
def beHexVal (l : List Nat) : Nat :=
  l.foldl (fun acc b => 16 * acc + hexDigitVal b) 0

/-- The optional `0x`/`0X` prefix stripping of JS `parseInt(s, 16)`. -/
def stripHexMarker (l : List Nat) : List Nat :=
  match l with
  | a :: b :: rest => if a = 48 && (b = 120 || b = 88) then rest else l
  | _ => l

/-- Core of JS `parseInt(s, 16)` after sign handling: strip an optional
`0x`/`0X` prefix, then take the longest hex-digit prefix; `none` models
`NaN` (no digits at all). -/
def jsParseIntHexCore (l : List Nat) : Option Nat :=
  let pre := (stripHexMarker l).takeWhile isHexDigitB
  if pre.isEmpty then none else some (beHexVal pre)

/-- JS `parseInt(s, 16)` on a byte string: optional sign, optional `0x`,
longest hex prefix; `none` models `NaN`. -/
def jsParseIntHex (l : List Nat) : Option Int :=
  match l with
  | [] => none
  | a :: rest =>
    if a = 45 then (jsParseIntHexCore rest).map (fun n => -(n : Int))
    else if a = 43 then (jsParseIntHexCore rest).map (fun n => (n : Int))
    else (jsParseIntHexCore (a :: rest)).map (fun n => (n : Int))

/-- `computeChecksum(data)`: sum of all char codes, masked with `& 0xFF`. -/
def computeChecksum (data : List Nat) : Nat :=
  (data.foldl (fun sum b => sum + b) 0) &&& 255

/-- Char code of one hex digit value (lowercase), as in JS
`Number.prototype.toString(16)`. -/
def toHexCharB (n : Nat) : Nat := if n < 10 then 48 + n else 87 + n

/-- Digit-accumulator loop of `n.toString(16)`. -/
def natToHexAux (n : Nat) (acc : List Nat) : List Nat :=
  if h : n = 0 then acc
  else natToHexAux (n / 16) (toHexCharB (n % 16) :: acc)
termination_by n
decreasing_by exact Nat.div_lt_self (Nat.pos_of_ne_zero h) (by norm_num)

/-- `n.toString(16)` for a natural: lowercase hex, no leading zeros. -/
def natToHex (n : Nat) : List Nat :=
  if n = 0 then [48] else natToHexAux n []

/-- `s.padStart(w, '0')`. -/
def padStartZero (w : Nat) (l : List Nat) : List Nat :=
  List.replicate (w - l.length) 48 ++ l

/-- The checksum field of an outgoing packet, as `sendPacket` renders it:
`checksum.toString(16).padStart(2, '0')`. -/
def renderChecksum (data : List Nat) : List Nat :=
  padStartZero 2 (natToHex (computeChecksum data))

/-- The checksum comparison done in `handleData`:
`parseInt(checksumStr, 16) === computeChecksum(packetData)`
(`NaN` compares unequal to everything). -/
def checksumOk (csStr payload : List Nat) : Bool :=
  match jsParseIntHex csStr with
  | none => false
  | some v => v == (computeChecksum payload : Int)

/-- Uppercasing of a lowercase hex digit char (spec-side helper for the
"case-insensitive" part of the checksum claim). -/
def hexToUpper (b : Nat) : Nat :=
  if 97 ≤ b && b ≤ 102 then b - 32 else b

-- ── Supporting lemmas on hex rendering/parsing ──────────────────────────

theorem computeChecksum_eq_mod (data : List Nat) :
    computeChecksum data = (data.foldl (fun sum b => sum + b) 0) % 256 := by
  have h := Nat.and_pow_two_sub_one_eq_mod (data.foldl (fun sum b => sum + b) 0) 8
  norm_num at h
  simpa [computeChecksum] using h

theorem hexDigitVal_toHexCharB (d : Nat) (hd : d < 16) :
    hexDigitVal (toHexCharB d) = d := by
  interval_cases d <;> decide

theorem isHexDigitB_toHexCharB (d : Nat) (hd : d < 16) :
    isHexDigitB (toHexCharB d) = true := by
  interval_cases d <;> decide

theorem natToHexAux_zero (acc : List Nat) : natToHexAux 0 acc = acc := by
  rw [natToHexAux]
  simp

theorem natToHexAux_pos (n : Nat) (acc : List Nat) (h : n ≠ 0) :
    natToHexAux n acc = natToHexAux (n / 16) (toHexCharB (n % 16) :: acc) := by
  conv_lhs => rw [natToHexAux]
  rw [dif_neg h]

theorem beHexVal_append (xs ys : List Nat) :
    beHexVal (xs ++ ys) = beHexVal xs * 16 ^ ys.length + beHexVal ys := by
  unfold beHexVal
  induction ys generalizing xs with
  | nil => simp
  | cons y ys ih =>
    have h1 : xs ++ y :: ys = (xs ++ [y]) ++ ys := by simp
    rw [h1, ih (xs ++ [y])]
    have h2 : List.foldl (fun acc b => 16 * acc + hexDigitVal b) 0 (xs ++ [y])
        = 16 * List.foldl (fun acc b => 16 * acc + hexDigitVal b) 0 xs + hexDigitVal y := by
      rw [List.foldl_append]
      simp
    rw [h2]
    have h3 : List.foldl (fun acc b => 16 * acc + hexDigitVal b) 0 (y :: ys)
        = List.foldl (fun acc b => 16 * acc + hexDigitVal b) (hexDigitVal y) ys := by
      simp
    rw [h3]
    have h4 : ∀ (l : List Nat) (a : Nat),
        List.foldl (fun acc b => 16 * acc + hexDigitVal b) a l
          = a * 16 ^ l.length + List.foldl (fun acc b => 16 * acc + hexDigitVal b) 0 l := by
      intro l
      induction l with
      | nil => simp
      | cons z zs ihz =>
        intro a
        simp only [List.foldl_cons, List.length_cons]
        rw [ihz (16 * a + hexDigitVal z), ihz (16 * 0 + hexDigitVal z)]
        ring
    rw [h4 ys (hexDigitVal y)]
    simp only [List.length_cons]
    ring

theorem natToHexAux_append (n : Nat) :
    ∀ acc, natToHexAux n acc = natToHexAux n [] ++ acc := by
  induction n using Nat.strong_induction_on with
  | _ n ih =>
    intro acc
    by_cases h : n = 0
    · simp [h, natToHexAux_zero]
    · have hlt : n / 16 < n := Nat.div_lt_self (Nat.pos_of_ne_zero h) (by norm_num)
      rw [natToHexAux_pos n acc h, natToHexAux_pos n [] h,
          ih (n / 16) hlt (toHexCharB (n % 16) :: acc),
          ih (n / 16) hlt [toHexCharB (n % 16)]]
      simp

theorem beHexVal_natToHexAux (n : Nat) :
    beHexVal (natToHexAux n []) = n := by
  induction n using Nat.strong_induction_on with
  | _ n ih =>
    by_cases h : n = 0
    · subst h; simp [natToHexAux_zero, beHexVal]
    · have hlt : n / 16 < n := Nat.div_lt_self (Nat.pos_of_ne_zero h) (by norm_num)
      rw [natToHexAux_pos n [] h, natToHexAux_append, beHexVal_append, ih (n / 16) hlt]
      have hd : hexDigitVal (toHexCharB (n % 16)) = n % 16 :=
        hexDigitVal_toHexCharB _ (Nat.mod_lt _ (by norm_num))
      simp [beHexVal, hd]
      omega

theorem beHexVal_natToHex (n : Nat) : beHexVal (natToHex n) = n := by
  unfold natToHex
  by_cases h : n = 0
  · simp [h, beHexVal, hexDigitVal]
  · simp only [h, if_neg, not_false_iff]
    exact beHexVal_natToHexAux n

theorem natToHexAux_all_hex (n : Nat) :
    ∀ b ∈ natToHexAux n [], isHexDigitB b = true := by
  induction n using Nat.strong_induction_on with
  | _ n ih =>
    by_cases h : n = 0
    · subst h; simp [natToHexAux_zero]
    · rw [natToHexAux_pos n [] h, natToHexAux_append]
      intro b hb
      rcases List.mem_append.mp hb with h1 | h1
      · exact ih (n / 16) (Nat.div_lt_self (Nat.pos_of_ne_zero h) (by norm_num)) b h1
      · have : b = toHexCharB (n % 16) := by simpa using h1
        subst this
        exact isHexDigitB_toHexCharB _ (Nat.mod_lt _ (by norm_num))

theorem natToHex_all_hex (n : Nat) :
    ∀ b ∈ natToHex n, isHexDigitB b = true := by
  unfold natToHex
  by_cases h : n = 0
  · simp [h, isHexDigitB]
  · simp only [h, if_neg, not_false_iff]
    exact natToHexAux_all_hex n

theorem natToHexAux_length_le (k : Nat) :
    ∀ n, n < 16 ^ k → (natToHexAux n []).length ≤ k := by
  induction k with
  | zero =>
    intro n hn
    have : n = 0 := by omega
    subst this
    simp [natToHexAux_zero]
  | succ k ihk =>
    intro n hn
    by_cases h : n = 0
    · subst h; simp [natToHexAux_zero]
    · rw [natToHexAux_pos n [] h, natToHexAux_append]
      have hdiv : n / 16 < 16 ^ k := by
        have hlt : n < 16 ^ k * 16 := by
          calc n < 16 ^ (k + 1) := hn
          _ = 16 ^ k * 16 := by ring
        exact Nat.div_lt_of_lt_mul (by omega)
      have := ihk (n / 16) hdiv
      simp only [List.length_append, List.length_cons, List.length_nil]
      omega

theorem natToHex_length_le (n k : Nat) (hk : 1 ≤ k) (hn : n < 16 ^ k) :
    (natToHex n).length ≤ k := by
  unfold natToHex
  by_cases h : n = 0
  · simp [h]; omega
  · simp only [h, if_neg, not_false_iff]
    exact natToHexAux_length_le k n hn

theorem natToHex_ne_nil (n : Nat) : natToHex n ≠ [] := by
  unfold natToHex
  by_cases h : n = 0
  · simp [h]
  · simp only [h, if_neg, not_false_iff]
    rw [natToHexAux_pos n [] h, natToHexAux_append]
    simp

theorem padStartZero_all_hex (w : Nat) (l : List Nat)
    (hl : ∀ b ∈ l, isHexDigitB b = true) :
    ∀ b ∈ padStartZero w l, isHexDigitB b = true := by
  intro b hb
  rcases List.mem_append.mp hb with h1 | h1
  · have : b = 48 := List.eq_of_mem_replicate h1
    subst this
    decide
  · exact hl b h1

theorem beHexVal_padStartZero (w : Nat) (l : List Nat) :
    beHexVal (padStartZero w l) = beHexVal l := by
  unfold padStartZero
  rw [beHexVal_append]
  have : beHexVal (List.replicate (w - l.length) 48) = 0 := by
    induction (w - l.length) with
    | zero => simp [beHexVal]
    | succ m ihm =>
      rw [List.replicate_succ]
      unfold beHexVal at ihm ⊢
      simp only [List.foldl_cons]
      have h48 : hexDigitVal 48 = 0 := by decide
      rw [h48]
      simpa using ihm
  rw [this]
  simp

/-- An all-hex nonempty string parses to its big-endian value (the `0x`
prefix branch cannot fire because `x`/`X` are not hex digits, and a sign
char is not a hex digit either). -/
theorem stripHexMarker_all_hex (l : List Nat)
    (hl : ∀ b ∈ l, isHexDigitB b = true) : stripHexMarker l = l := by
  unfold stripHexMarker
  cases l with
  | nil => rfl
  | cons a l' =>
    cases l' with
    | nil => rfl
    | cons b rest =>
      have hb := hl b (by simp)
      have hcond : (a = 48 && (b = 120 || b = 88)) = false := by
        by_cases h120 : b = 120
        · subst h120; simp [isHexDigitB] at hb
        · by_cases h88 : b = 88
          · subst h88; simp [isHexDigitB] at hb
          · simp [h120, h88]
      simp [hcond]

theorem jsParseIntHex_all_hex (l : List Nat) (hne : l ≠ [])
    (hl : ∀ b ∈ l, isHexDigitB b = true) :
    jsParseIntHex l = some ((beHexVal l : Nat) : Int) := by
  have hcore : jsParseIntHexCore l = some (beHexVal l) := by
    unfold jsParseIntHexCore
    rw [stripHexMarker_all_hex l hl]
    have htw : l.takeWhile isHexDigitB = l := List.takeWhile_eq_self_iff.mpr hl
    rw [htw]
    cases l with
    | nil => exact absurd rfl hne
    | cons a l' => simp
  cases l with
  | nil => exact absurd rfl hne
  | cons a rest =>
    have ha := hl a (by simp)
    have h45 : a ≠ 45 := by rintro rfl; simp [isHexDigitB] at ha
    have h43 : a ≠ 43 := by rintro rfl; simp [isHexDigitB] at ha
    simp only [jsParseIntHex]
    rw [if_neg h45, if_neg h43, hcore]
    rfl

theorem hexToUpper_hex (b : Nat) (hb : isHexDigitB b = true) :
    isHexDigitB (hexToUpper b) = true ∧ hexDigitVal (hexToUpper b) = hexDigitVal b := by
  unfold hexToUpper
  by_cases h : (97 ≤ b && b ≤ 102) = true
  · have hb2 : 97 ≤ b ∧ b ≤ 102 := by
      simpa only [Bool.and_eq_true, decide_eq_true_eq] using h
    simp only [h, if_true]
    constructor
    · simp only [isHexDigitB, Bool.or_eq_true, Bool.and_eq_true, decide_eq_true_eq]
      omega
    · simp only [hexDigitVal]
      split_ifs <;>
        simp only [Bool.and_eq_true, decide_eq_true_eq, Bool.not_eq_true] at * <;>
        omega
  · simp only [h, if_false]
    exact ⟨hb, rfl⟩

theorem beHexVal_map_hexToUpper (l : List Nat)
    (hl : ∀ b ∈ l, isHexDigitB b = true) :
    beHexVal (l.map hexToUpper) = beHexVal l := by
  unfold beHexVal
  have : ∀ acc, List.foldl (fun acc b => 16 * acc + hexDigitVal b) acc (l.map hexToUpper)
      = List.foldl (fun acc b => 16 * acc + hexDigitVal b) acc l := by
    induction l with
    | nil => intro acc; rfl
    | cons x xs ih =>
      intro acc
      simp only [List.map_cons, List.foldl_cons]
      rw [(hexToUpper_hex x (hl x (by simp))).2]
      exact ih (fun b hb => hl b (by simp [hb])) _
  exact this 0

theorem renderChecksum_parses (P : List Nat) :
    jsParseIntHex (renderChecksum P) = some ((computeChecksum P : Nat) : Int) := by
  unfold renderChecksum
  have hne : padStartZero 2 (natToHex (computeChecksum P)) ≠ [] := by
    unfold padStartZero
    intro hcontra
    rcases List.append_eq_nil.mp hcontra with ⟨_, h2⟩
    exact natToHex_ne_nil _ h2
  have hhex := padStartZero_all_hex 2 (natToHex (computeChecksum P))
    (natToHex_all_hex _)
  rw [jsParseIntHex_all_hex _ hne hhex, beHexVal_padStartZero, beHexVal_natToHex]

theorem sum_set_eq (P : List Nat) (i b' : Nat) (hi : i < P.length) :
    (P.set i b').foldl (fun s b => s + b) 0 + P.getD i 0
      = P.foldl (fun s b => s + b) 0 + b' := by
  have hfold : ∀ l : List Nat, l.foldl (fun s b => s + b) 0 = l.sum := by
    intro l
    rw [List.sum_eq_foldl]
  have h1 : (P.set i b').sum = (P.take i).sum + b' + (P.drop (i + 1)).sum := by
    rw [List.sum_set, if_pos hi]
  have h2 : P.sum = (P.take i).sum + (P.drop i).sum := by
    rw [← List.sum_append, List.take_append_drop]
  have h3 : (P.drop i).sum = P[i] + (P.drop (i + 1)).sum := by
    rw [List.drop_eq_getElem_cons hi, List.sum_cons]
  have h4 : P.getD i 0 = P[i] := List.getD_eq_getElem P 0 hi
  rw [hfold, hfold, h1, h2, h3, h4]
  ring

/-- C4: the checksum is the byte sum mod 256 rendered as two
case-insensitive hex digits; verification succeeds on the rendered
checksum of any payload (lower- or uppercase), and fails against any
single-byte mutation of the payload. -/
theorem checksum_roundtrip_and_mutation (P : List Nat)
    (hP : ∀ b ∈ P, b < 256) :
    computeChecksum P = (P.foldl (fun sum b => sum + b) 0) % 256
    ∧ checksumOk (renderChecksum P) P = true
    ∧ checksumOk ((renderChecksum P).map hexToUpper) P = true
    ∧ (∀ i b', i < P.length → b' < 256 → b' ≠ P.getD i 0 →
        checksumOk (renderChecksum P) (P.set i b') = false) := by
  refine ⟨computeChecksum_eq_mod P, ?_, ?_, ?_⟩
  · unfold checksumOk
    rw [renderChecksum_parses]
    simp
  · unfold checksumOk
    have hne : renderChecksum P ≠ [] := by
      unfold renderChecksum padStartZero
      intro hcontra
      rcases List.append_eq_nil.mp hcontra with ⟨_, h2⟩
      exact natToHex_ne_nil _ h2
    have hhex : ∀ b ∈ renderChecksum P, isHexDigitB b = true :=
      padStartZero_all_hex 2 (natToHex (computeChecksum P)) (natToHex_all_hex _)
    have hneu : (renderChecksum P).map hexToUpper ≠ [] := by
      intro hcontra
      exact hne (List.map_eq_nil_iff.mp hcontra)
    have hhexu : ∀ b ∈ (renderChecksum P).map hexToUpper, isHexDigitB b = true := by
      intro b hb
      rcases List.mem_map.mp hb with ⟨a, ha, rfl⟩
      exact (hexToUpper_hex a (hhex a ha)).1
    rw [jsParseIntHex_all_hex _ hneu hhexu, beHexVal_map_hexToUpper _ hhex]
    unfold renderChecksum
    rw [beHexVal_padStartZero, beHexVal_natToHex]
    simp
  · intro i b' hi hb' hne
    unfold checksumOk
    rw [renderChecksum_parses]
    have hsum := sum_set_eq P i b' hi
    have hPi : P.getD i 0 < 256 := by
      rw [List.getD_eq_getElem P 0 hi]
      exact hP _ (List.getElem_mem hi)
    have hcs : computeChecksum P ≠ computeChecksum (P.set i b') := by
      rw [computeChecksum_eq_mod, computeChecksum_eq_mod]
      intro heq
      omega
    simp only [beq_eq_false_iff_ne, ne_eq, Int.natCast_inj]
    exact hcs

/-- C4 witness: the theorem instantiated at the concrete payload "OK". -/
theorem checksum_roundtrip_and_mutation_witness :
    (∀ b ∈ [79, 75], b < 256)
    ∧ (computeChecksum [79, 75] = ([79, 75].foldl (fun sum b => sum + b) 0) % 256
       ∧ checksumOk (renderChecksum [79, 75]) [79, 75] = true
       ∧ checksumOk ((renderChecksum [79, 75]).map hexToUpper) [79, 75] = true
       ∧ (∀ i b', i < [79, 75].length → b' < 256 → b' ≠ [79, 75].getD i 0 →
           checksumOk (renderChecksum [79, 75]) ([79, 75].set i b') = false)) :=
  ⟨by decide, checksum_roundtrip_and_mutation [79, 75] (by decide)⟩

-- ── Binary escaping for the X packet (C8) ──────────────────────────────

/-- `escapeXPacketData(data)`: each byte equal to 0x7d, 0x23 (`#`) or
0x24 (`$`) becomes 0x7d followed by the byte XOR 0x20; all other bytes
pass through. -/
def escapeXPacketData (data : List Nat) : List Nat :=
  match data with
  | [] => []
  | b :: rest =>
    if b = 125 || b = 35 || b = 36 then 125 :: (b ^^^ 32) :: escapeXPacketData rest
    else b :: escapeXPacketData rest

/-- Modelled from the spec: the standard GDB-side unescape, which the
repository does not contain (it is target-side code): `0x7d` followed by
`b` decodes to `b XOR 0x20`; other bytes pass through. -/
def gdbUnescape (data : List Nat) : List Nat :=
  match data with
  | [] => []
  | [b] => if b = 125 then [] else [b]
  | b :: c :: rest =>
    if b = 125 then (c ^^^ 32) :: gdbUnescape rest
    else b :: gdbUnescape (c :: rest)

theorem xor32_xor32 (b : Nat) : (b ^^^ 32) ^^^ 32 = b := by
  rw [Nat.xor_assoc, Nat.xor_self, Nat.xor_zero]

theorem gdbUnescape_esc (c : Nat) (rest : List Nat) :
    gdbUnescape (125 :: c :: rest) = (c ^^^ 32) :: gdbUnescape rest := by
  simp [gdbUnescape]

theorem gdbUnescape_plain (b : Nat) (rest : List Nat) (h : b ≠ 125) :
    gdbUnescape (b :: rest) = b :: gdbUnescape rest := by
  cases rest with
  | nil => simp [gdbUnescape, h]
  | cons c r => simp [gdbUnescape, h]

/-- C8: the X-packet byte-stuffing replaces exactly the three special
bytes (0x7d, 0x23, 0x24) by `0x7d` followed by the byte XOR 0x20, leaves
every other byte unchanged, and the standard GDB unescape inverts it on
every byte buffer. -/
theorem escapeXPacketData_roundtrip (data : List Nat) :
    gdbUnescape (escapeXPacketData data) = data
    ∧ (∀ b rest, escapeXPacketData (b :: rest)
        = if b = 125 || b = 35 || b = 36
          then 125 :: (b ^^^ 32) :: escapeXPacketData rest
          else b :: escapeXPacketData rest) := by
  constructor
  · induction data with
    | nil => rfl
    | cons b rest ih =>
      rw [escapeXPacketData]
      by_cases h : (b = 125 || b = 35 || b = 36) = true
      · rw [if_pos h, gdbUnescape_esc, xor32_xor32, ih]
      · rw [if_neg h]
        simp only [Bool.or_eq_true, decide_eq_true_eq] at h
        push_neg at h
        rw [gdbUnescape_plain b _ h.1.1, ih]
  · intro b rest
    rw [escapeXPacketData]

-- ── Request/response multiplexer (C1, C2, C7) ──────────────────────────

/-- The `O`-packet test in `handleData`:
`packetData.startsWith('O') && packetData.length > 1 && /^O[0-9a-fA-F]+$/`. -/
def isConsolePacket (p : List Nat) : Bool :=
  match p with
  | [] => false
  | b :: rest => b = 79 && !rest.isEmpty && rest.all isHexDigitB

/-- The stop-reply test: `startsWith('S') || startsWith('T')`. -/
def isStopReplyPacket (p : List Nat) : Bool :=
  match p with
  | [] => false
  | b :: _ => b = 83 || b = 84

/-- The protocol-level mutable state of `GdbProtocol`: the FIFO resolver
queue (entries are request identities, head = oldest), the async-stop
slot, the running flag and the no-ack flag. -/
structure MuxState where
  packetResolvers : List Nat
  pendingStopReply : Option (List Nat)
  isRunningFlag : Bool
  noAckMode : Bool
  deriving DecidableEq

/-- Observable effects of processing incoming data. -/
inductive RxEvent where
  | ackRecv : RxEvent
  | nackRecv : RxEvent
  | sendNack : RxEvent
  | sendAck : RxEvent
  | consoleOutput (hexText : List Nat) : RxEvent
  | asyncStop (payload : List Nat) : RxEvent
  | resolved (id : Nat) (payload : List Nat) : RxEvent
  | unsolicited (payload : List Nat) : RxEvent
  deriving DecidableEq

/-- The classification/dispatch of one checksum-valid payload
(`handleData` lines 183-214): console output is logged and dropped; a
stop reply with an empty queue fills the async slot and clears the
running flag; otherwise the oldest resolver is popped and resolved (a
stop-shaped payload also clears the running flag); with no resolver the
payload is logged as unsolicited. -/
def dispatchPayload (st : MuxState) (p : List Nat) : MuxState × RxEvent :=
  if isConsolePacket p then (st, .consoleOutput (p.drop 1))
  else if isStopReplyPacket p && st.packetResolvers.isEmpty then
    ({ st with pendingStopReply := some p, isRunningFlag := false }, .asyncStop p)
  else
    match st.packetResolvers with
    | r :: rest =>
      ({ st with packetResolvers := rest,
                 isRunningFlag := if isStopReplyPacket p then false else st.isRunningFlag },
       .resolved r p)
    | [] => (st, .unsolicited p)

/-- Dispatch a list of payloads in order, collecting events. -/
def dispatchList (st : MuxState) (ps : List (List Nat)) : MuxState × List RxEvent :=
  match ps with
  | [] => (st, [])
  | p :: rest =>
    let s1 := dispatchPayload st p
    let s2 := dispatchList s1.1 rest
    (s2.1, s1.2 :: s2.2)

theorem dispatchList_nil (st : MuxState) : dispatchList st [] = (st, []) := rfl

theorem dispatchList_cons (st : MuxState) (p : List Nat) (ps : List (List Nat)) :
    dispatchList st (p :: ps)
      = ((dispatchList (dispatchPayload st p).1 ps).1,
         (dispatchPayload st p).2 :: (dispatchList (dispatchPayload st p).1 ps).2) := rfl

/-- `sendCommand`: append a pending resolver to the FIFO queue (the
timeout timer and the packet write are not part of the queue state). -/
def sendCommand (st : MuxState) (id : Nat) : MuxState :=
  { st with packetResolvers := st.packetResolvers ++ [id] }

/-- Issue several commands without awaiting any of them. -/
def issueAll (st : MuxState) (ids : List Nat) : MuxState :=
  ids.foldl sendCommand st

/-- `waitForStop`: if the async-stop slot is full, consume and return it
(no wire traffic); otherwise register a pending resolver and block
(`none`). -/
def waitForStop (st : MuxState) (rid : Nat) : MuxState × Option (List Nat) :=
  match st.pendingStopReply with
  | some reply => ({ st with pendingStopReply := none, isRunningFlag := false }, some reply)
  | none => ({ st with packetResolvers := st.packetResolvers ++ [rid] }, none)

theorem issueAll_queue (ids : List Nat) : ∀ st : MuxState,
    issueAll st ids = { st with packetResolvers := st.packetResolvers ++ ids } := by
  induction ids with
  | nil => intro st; simp [issueAll]
  | cons i rest ih =>
    intro st
    show issueAll (sendCommand st i) rest = _
    rw [ih (sendCommand st i)]
    simp [sendCommand]

theorem stop_not_console (p : List Nat) (hs : isStopReplyPacket p = true) :
    isConsolePacket p = false := by
  cases p with
  | nil => simp [isStopReplyPacket] at hs
  | cons b rest =>
    simp only [isStopReplyPacket, Bool.or_eq_true, decide_eq_true_eq] at hs
    rcases hs with h | h <;> subst h <;> simp [isConsolePacket]

/-- C1: strict FIFO — after issuing commands `ids` (without awaiting) on
a state with an empty resolver queue, delivering non-console payloads
`ps` (at most as many as there are pending commands, so the queue stays
non-empty at each delivery) resolves the i-th issued command with the
i-th delivered payload, and leaves exactly the unserved commands
pending, in order. -/
theorem fifo_order (st : MuxState) (ids : List Nat) (ps : List (List Nat))
    (hq : st.packetResolvers = [])
    (hcons : ∀ p ∈ ps, isConsolePacket p = false)
    (hlen : ps.length ≤ ids.length) :
    (dispatchList (issueAll st ids) ps).2
      = (ids.zip ps).map (fun x => RxEvent.resolved x.1 x.2)
    ∧ (dispatchList (issueAll st ids) ps).1.packetResolvers = ids.drop ps.length := by
  rw [issueAll_queue, hq]
  simp only [List.nil_append]
  clear hq
  -- generalize: from any state whose queue is exactly `ids`
  suffices h : ∀ (ps : List (List Nat)) (ids : List Nat) (s : MuxState),
      s.packetResolvers = ids →
      (∀ p ∈ ps, isConsolePacket p = false) →
      ps.length ≤ ids.length →
      (dispatchList s ps).2 = (ids.zip ps).map (fun x => RxEvent.resolved x.1 x.2)
      ∧ (dispatchList s ps).1.packetResolvers = ids.drop ps.length by
    exact h ps ids _ rfl hcons hlen
  intro ps
  induction ps with
  | nil =>
    intro ids s hqs _ _
    simp [dispatchList, hqs]
  | cons p rest ih =>
    intro ids s hqs hcons hlen
    cases ids with
    | nil => simp at hlen
    | cons i ids' =>
      have hp : isConsolePacket p = false := hcons p (by simp)
      have hstep : dispatchPayload s p
          = ({ s with
                packetResolvers := ids',
                isRunningFlag := if isStopReplyPacket p then false else s.isRunningFlag },
             .resolved i p) := by
        unfold dispatchPayload
        rw [hp]
        simp only [Bool.false_eq_true, if_false]
        have hne : (isStopReplyPacket p && s.packetResolvers.isEmpty) = false := by
          rw [hqs]
          simp
        rw [hne]
        simp only [Bool.false_eq_true, if_false]
        rw [hqs]
      have ihr := ih ids'
        { s with
          packetResolvers := ids',
          isRunningFlag := if isStopReplyPacket p then false else s.isRunningFlag }
        rfl (fun q hqmem => hcons q (by simp [hqmem])) (by simpa using hlen)
      refine ⟨?_, ?_⟩
      · simp only [dispatchList_cons, hstep, List.zip_cons_cons, List.map_cons]
        rw [ihr.1]
      · simp only [dispatchList_cons, hstep, List.length_cons, List.drop_succ_cons]
        rw [ihr.2]

/-- C1 witness: two commands, two replies, resolved in order. -/
theorem fifo_order_witness :
    ((⟨[], none, false, false⟩ : MuxState).packetResolvers = []
     ∧ (∀ p ∈ [[103], [109]], isConsolePacket p = false)
     ∧ [[103], [109]].length ≤ [1, 2].length)
    ∧ ((dispatchList (issueAll ⟨[], none, false, false⟩ [1, 2]) [[103], [109]]).2
        = ([1, 2].zip [[103], [109]]).map (fun x => RxEvent.resolved x.1 x.2)
       ∧ (dispatchList (issueAll ⟨[], none, false, false⟩ [1, 2]) [[103], [109]]).1.packetResolvers
        = [1, 2].drop [[103], [109]].length) :=
  ⟨⟨rfl, by decide, by decide⟩,
   fifo_order ⟨[], none, false, false⟩ [1, 2] [[103], [109]] rfl (by decide) (by decide)⟩

/-- C2: a stop-reply payload arriving with an empty resolver queue is
stored in the async-stop slot and clears the running flag, with no
error; `waitForStop` then consumes and returns exactly that payload
without any wire write, and a second `waitForStop` with the slot empty
registers a pending resolver and blocks. -/
theorem async_stop_capture (st : MuxState) (p : List Nat)
    (hq : st.packetResolvers = [])
    (hs : isStopReplyPacket p = true) :
    dispatchPayload st p
      = ({ st with pendingStopReply := some p, isRunningFlag := false }, .asyncStop p)
    ∧ (∀ rid,
        waitForStop { st with pendingStopReply := some p, isRunningFlag := false } rid
          = ({ st with pendingStopReply := none, isRunningFlag := false }, some p))
    ∧ (∀ rid,
        waitForStop { st with pendingStopReply := none, isRunningFlag := false } rid
          = ({ st with
                pendingStopReply := none,
                isRunningFlag := false,
                packetResolvers := st.packetResolvers ++ [rid] }, none)) := by
  refine ⟨?_, ?_, ?_⟩
  · unfold dispatchPayload
    rw [stop_not_console p hs]
    simp only [Bool.false_eq_true, if_false]
    have : (isStopReplyPacket p && st.packetResolvers.isEmpty) = true := by
      rw [hs, hq]
      simp
    rw [this]
    simp
  · intro rid
    rfl
  · intro rid
    rfl

/-- C2 witness: concrete async `S05` capture and double `waitForStop`. -/
theorem async_stop_capture_witness :
    ((⟨[], none, true, false⟩ : MuxState).packetResolvers = []
     ∧ isStopReplyPacket [83, 48, 53] = true)
    ∧ (dispatchPayload ⟨[], none, true, false⟩ [83, 48, 53]
        = (⟨[], some [83, 48, 53], false, false⟩, .asyncStop [83, 48, 53])
       ∧ (∀ rid, waitForStop ⟨[], some [83, 48, 53], false, false⟩ rid
            = (⟨[], none, false, false⟩, some [83, 48, 53]))
       ∧ (∀ rid, waitForStop ⟨[], none, false, false⟩ rid
            = (⟨[rid], none, false, false⟩, none))) :=
  ⟨⟨rfl, by decide⟩,
   async_stop_capture ⟨[], none, true, false⟩ [83, 48, 53] rfl (by decide)⟩

/-- C7: an `O<hex>` payload is classified as console output — decoded
hex is logged, no resolver is touched — and the oldest resolver still
receives the next non-console packet; the literal reply `OK` is not
classified as console output and is delivered to the oldest resolver. -/
theorem console_output_noninterference (st : MuxState) (rest p2 : List Nat)
    (q : Nat) (qs : List Nat)
    (hrest : rest ≠ [])
    (hhex : rest.all isHexDigitB = true)
    (hq : st.packetResolvers = q :: qs)
    (hp2 : isConsolePacket p2 = false) :
    dispatchPayload st (79 :: rest) = (st, .consoleOutput rest)
    ∧ (dispatchList st [79 :: rest, p2]).2 = [.consoleOutput rest, .resolved q p2]
    ∧ isConsolePacket [79, 75] = false
    ∧ (dispatchPayload st [79, 75]).2 = .resolved q [79, 75] := by
  have hrestE : rest.isEmpty = false := by
    cases rest with
    | nil => exact absurd rfl hrest
    | cons a t => rfl
  have hcons : isConsolePacket (79 :: rest) = true := by
    simp [isConsolePacket, hrestE, hhex]
  have hstep1 : dispatchPayload st (79 :: rest) = (st, .consoleOutput rest) := by
    unfold dispatchPayload
    rw [hcons]
    simp
  have hstep2 : dispatchPayload st p2
      = ({ st with
            packetResolvers := qs,
            isRunningFlag := if isStopReplyPacket p2 then false else st.isRunningFlag },
         .resolved q p2) := by
    unfold dispatchPayload
    rw [hp2]
    simp only [Bool.false_eq_true, if_false]
    have hne : (isStopReplyPacket p2 && st.packetResolvers.isEmpty) = false := by
      rw [hq]
      simp
    rw [hne]
    simp only [Bool.false_eq_true, if_false]
    rw [hq]
  refine ⟨hstep1, ?_, by decide, ?_⟩
  · simp only [dispatchList_cons, dispatchList_nil, hstep1, hstep2]
  · have hok : isConsolePacket [79, 75] = false := by decide
    have hne : (isStopReplyPacket [79, 75] && st.packetResolvers.isEmpty) = false := by
      simp [isStopReplyPacket]
    unfold dispatchPayload
    rw [hok]
    simp only [Bool.false_eq_true, if_false]
    rw [hne]
    simp only [Bool.false_eq_true, if_false]
    rw [hq]

/-- C7 witness: console packet `O48` between a command and its reply
`OK`, with one pending resolver. -/
theorem console_output_noninterference_witness :
    (([52, 56] : List Nat) ≠ []
     ∧ ([52, 56] : List Nat).all isHexDigitB = true
     ∧ (⟨[7], none, false, false⟩ : MuxState).packetResolvers = [7]
     ∧ isConsolePacket [79, 75] = false)
    ∧ (dispatchPayload ⟨[7], none, false, false⟩ (79 :: [52, 56])
        = (⟨[7], none, false, false⟩, .consoleOutput [52, 56])
       ∧ (dispatchList ⟨[7], none, false, false⟩ [79 :: [52, 56], [79, 75]]).2
        = [.consoleOutput [52, 56], .resolved 7 [79, 75]]
       ∧ isConsolePacket [79, 75] = false
       ∧ (dispatchPayload ⟨[7], none, false, false⟩ [79, 75]).2 = .resolved 7 [79, 75]) :=
  ⟨⟨by decide, by decide, rfl, by decide⟩,
   console_output_noninterference ⟨[7], none, false, false⟩ [52, 56] [79, 75] 7 []
     (by decide) (by decide) rfl (by decide)⟩

-- ── Registers (C9, C10) ────────────────────────────────────────────────

/-- The `M68kRegisters` interface: 18 named 32-bit registers, in the
positional wire order `D0..D7, A0..A7, SR, PC` of `REGISTER_NAMES`.
A field value is a JS number produced by `parseInt`; `none` models `NaN`. -/
structure M68kRegisters where
  D0 : Option Int
  D1 : Option Int
  D2 : Option Int
  D3 : Option Int
  D4 : Option Int
  D5 : Option Int
  D6 : Option Int
  D7 : Option Int
  A0 : Option Int
  A1 : Option Int
  A2 : Option Int
  A3 : Option Int
  A4 : Option Int
  A5 : Option Int
  A6 : Option Int
  A7 : Option Int
  SR : Option Int
  PC : Option Int
  deriving DecidableEq

/-- Positional accessor following `REGISTER_NAMES`. -/
def regGet (r : M68kRegisters) : Nat → Option Int
  | 0 => r.D0
  | 1 => r.D1
  | 2 => r.D2
  | 3 => r.D3
  | 4 => r.D4
  | 5 => r.D5
  | 6 => r.D6
  | 7 => r.D7
  | 8 => r.A0
  | 9 => r.A1
  | 10 => r.A2
  | 11 => r.A3
  | 12 => r.A4
  | 13 => r.A5
  | 14 => r.A6
  | 15 => r.A7
  | 16 => r.SR
  | 17 => r.PC
  | _ => none

inductive RegError where
  | tooShort (actual expected : Nat)
  deriving DecidableEq

/-- One positional field of the `g` reply:
`parseInt(reply.slice(i*8, i*8+8), 16)`. -/
def parseRegField (reply : List Nat) (i : Nat) : Option Int :=
  jsParseIntHex ((reply.drop (i * 8)).take 8)

/-- `readRegisters()` applied to the `g` reply string: a reply shorter
than 144 chars is an explicit `tooShort` error naming actual and
expected lengths; otherwise 18 positional 8-hex-char fields are parsed. -/
def readRegisters (reply : List Nat) : Except RegError M68kRegisters :=
  if reply.length < 144 then .error (.tooShort reply.length 144)
  else .ok
    ⟨parseRegField reply 0, parseRegField reply 1, parseRegField reply 2,
     parseRegField reply 3, parseRegField reply 4, parseRegField reply 5,
     parseRegField reply 6, parseRegField reply 7, parseRegField reply 8,
     parseRegField reply 9, parseRegField reply 10, parseRegField reply 11,
     parseRegField reply 12, parseRegField reply 13, parseRegField reply 14,
     parseRegField reply 15, parseRegField reply 16, parseRegField reply 17⟩

/-- JS `value >>> 0` (ToUint32) on an integral number; `NaN >>> 0` is 0. -/
def toUint32 (v : Option Int) : Nat :=
  match v with
  | none => 0
  | some v => (v % (2 ^ 32 : Int)).toNat

/-- `(value >>> 0).toString(16).padStart(8, '0')`. -/
def regHex8 (v : Option Int) : List Nat :=
  padStartZero 8 (natToHex (toUint32 v))

/-- The payload of `writeRegister`: `P<hexindex>=<8 hex chars>`. -/
def writeRegisterCmd (id : Nat) (value : Int) : List Nat :=
  80 :: (natToHex id ++ (61 :: regHex8 (some value)))

/-- The payload of `writeRegisters`: `G` followed by the 18 positional
8-hex-char fields. -/
def writeRegistersCmd (regs : M68kRegisters) : List Nat :=
  71 :: ((List.range 18).map (fun i => regHex8 (regGet regs i))).flatten

/-- Lowercase hex digit char class (what `toString(16)` emits). -/
def isLowerHexDigitB (b : Nat) : Bool :=
  (48 ≤ b && b ≤ 57) || (97 ≤ b && b ≤ 102)

theorem natToHexAux_all_lower (n : Nat) :
    ∀ b ∈ natToHexAux n [], isLowerHexDigitB b = true := by
  induction n using Nat.strong_induction_on with
  | _ n ih =>
    by_cases h : n = 0
    · subst h; simp [natToHexAux_zero]
    · rw [natToHexAux_pos n [] h, natToHexAux_append]
      intro b hb
      rcases List.mem_append.mp hb with h1 | h1
      · exact ih (n / 16) (Nat.div_lt_self (Nat.pos_of_ne_zero h) (by norm_num)) b h1
      · have hb2 : b = toHexCharB (n % 16) := by simpa using h1
        subst hb2
        have : n % 16 < 16 := Nat.mod_lt _ (by norm_num)
        unfold toHexCharB isLowerHexDigitB
        split_ifs with hlt <;>
          simp only [Bool.or_eq_true, Bool.and_eq_true, decide_eq_true_eq] <;>
          omega

theorem natToHex_all_lower (n : Nat) :
    ∀ b ∈ natToHex n, isLowerHexDigitB b = true := by
  unfold natToHex
  by_cases h : n = 0
  · simp [h, isLowerHexDigitB]
  · simp only [h, if_neg, not_false_iff]
    exact natToHexAux_all_lower n

theorem toUint32_lt (v : Option Int) : toUint32 v < 2 ^ 32 := by
  match v with
  | none => decide
  | some v =>
    show ((v % (2 ^ 32 : Int)).toNat) < 2 ^ 32
    have h1 : (0 : Int) ≤ v % (2 ^ 32 : Int) := Int.emod_nonneg v (by norm_num)
    have h2 : v % (2 ^ 32 : Int) < (2 ^ 32 : Int) := Int.emod_lt_of_pos v (by norm_num)
    omega

theorem regHex8_length (v : Option Int) : (regHex8 v).length = 8 := by
  unfold regHex8 padStartZero
  have hle : (natToHex (toUint32 v)).length ≤ 8 := by
    apply natToHex_length_le _ 8 (by norm_num)
    have := toUint32_lt v
    norm_num
    omega
  simp only [List.length_append, List.length_replicate]
  omega

theorem regHex8_all_lower (v : Option Int) :
    ∀ b ∈ regHex8 v, isLowerHexDigitB b = true := by
  unfold regHex8 padStartZero
  intro b hb
  rcases List.mem_append.mp hb with h1 | h1
  · have hb2 : b = 48 := List.eq_of_mem_replicate h1
    subst hb2
    decide
  · exact natToHex_all_lower _ b h1

theorem beHexVal_regHex8 (v : Option Int) : beHexVal (regHex8 v) = toUint32 v := by
  unfold regHex8
  rw [beHexVal_padStartZero, beHexVal_natToHex]

/-- C10: register writes normalize modulo 2^32: the single-register
payload is `P<hexindex>=` plus exactly 8 lowercase hex digits whose
big-endian value is `value mod 2^32` (also for negative or oversized
values), and the `G` payload is exactly 144 lowercase hex characters
(18 × 8) after the command letter. -/
theorem register_write_encoding (id : Nat) (value : Int) (regs : M68kRegisters) :
    writeRegisterCmd id value = 80 :: (natToHex id ++ (61 :: regHex8 (some value)))
    ∧ (regHex8 (some value)).length = 8
    ∧ (∀ b ∈ regHex8 (some value), isLowerHexDigitB b = true)
    ∧ ((beHexVal (regHex8 (some value)) : Int) = value % (2 ^ 32 : Int))
    ∧ ((writeRegistersCmd regs).drop 1).length = 144
    ∧ (∀ b ∈ (writeRegistersCmd regs).drop 1, isLowerHexDigitB b = true) := by
  refine ⟨rfl, regHex8_length _, regHex8_all_lower _, ?_, ?_, ?_⟩
  · rw [beHexVal_regHex8]
    show (((value % (2 ^ 32 : Int)).toNat : Int)) = value % (2 ^ 32 : Int)
    have h1 : (0 : Int) ≤ value % (2 ^ 32 : Int) := Int.emod_nonneg value (by norm_num)
    omega
  · show (((List.range 18).map (fun i => regHex8 (regGet regs i))).flatten).length = 144
    rw [List.length_flatten, List.map_map]
    have hmap : (List.range 18).map (List.length ∘ fun i => regHex8 (regGet regs i))
        = List.replicate 18 8 := by
      apply List.eq_replicate_of_mem
      intro x hx
      rcases List.mem_map.mp hx with ⟨i, _, rfl⟩
      exact regHex8_length _
    rw [hmap, List.sum_replicate]
    norm_num
  · show ∀ b ∈ ((List.range 18).map (fun i => regHex8 (regGet regs i))).flatten,
      isLowerHexDigitB b = true
    intro b hb
    rcases List.mem_flatten.mp hb with ⟨l, hl, hbl⟩
    rcases List.mem_map.mp hl with ⟨i, _, rfl⟩
    exact regHex8_all_lower _ b hbl

theorem mem_slice_of_mem_take (reply : List Nat) (k n : Nat) (hk : k + 8 ≤ n) :
    ∀ b ∈ (reply.drop k).take 8, b ∈ reply.take n := by
  intro b hb
  rw [List.take_drop] at hb
  have hsub := List.drop_subset k (reply.take (k + 8))
  have hb2 : b ∈ reply.take (k + 8) := hsub hb
  have : reply.take (k + 8) = (reply.take n).take (k + 8) := by
    rw [List.take_take]
    congr 1
    omega
  rw [this] at hb2
  exact List.take_subset _ _ hb2

theorem parseRegField_of_hex (reply : List Nat) (i : Nat)
    (hi : i * 8 + 8 ≤ 144) (hlen : 144 ≤ reply.length)
    (hhex : ∀ b ∈ reply.take 144, isHexDigitB b = true) :
    parseRegField reply i
      = some ((beHexVal ((reply.drop (i * 8)).take 8) : Nat) : Int) := by
  unfold parseRegField
  apply jsParseIntHex_all_hex
  · have hlen2 : ((reply.drop (i * 8)).take 8).length = 8 := by
      rw [List.length_take, List.length_drop]
      omega
    intro hcontra
    rw [hcontra] at hlen2
    simp at hlen2
  · exact fun b hb => hhex b (mem_slice_of_mem_take reply (i * 8) 144 (by omega) b hb)

/-- C9: a `g` reply shorter than 144 chars yields an explicit error
naming actual and expected lengths (no partial result); a reply of at
least 144 hex chars yields 18 registers parsed positionally as
8-hex-char big-endian values in the order `D0..D7, A0..A7, SR, PC`, so
in particular the PC is chars 136..144 read as big-endian hex. -/
theorem readRegisters_spec (reply : List Nat) :
    (reply.length < 144 →
      readRegisters reply = .error (.tooShort reply.length 144))
    ∧ (144 ≤ reply.length →
      (∀ b ∈ reply.take 144, isHexDigitB b = true) →
      ∃ regs, readRegisters reply = .ok regs
        ∧ (∀ i, i < 18 →
            regGet regs i = some ((beHexVal ((reply.drop (i * 8)).take 8) : Nat) : Int))
        ∧ regs.PC = some ((beHexVal ((reply.drop 136).take 8) : Nat) : Int)) := by
  constructor
  · intro hshort
    unfold readRegisters
    rw [if_pos hshort]
  · intro hlen hhex
    have hnot : ¬ reply.length < 144 := by omega
    refine ⟨_, by unfold readRegisters; rw [if_neg hnot], ?_, ?_⟩
    · intro i hi
      have hfield := parseRegField_of_hex reply i (by omega) hlen hhex
      interval_cases i <;> simpa [regGet] using hfield
    · have hfield := parseRegField_of_hex reply 17 (by norm_num) hlen hhex
      simpa [parseRegField] using hfield

set_option maxRecDepth 4000 in
/-- C9 witness: the short-reply branch at the empty reply and the parse
branch at a 144-char all-zero reply. -/
theorem readRegisters_spec_witness :
    (([] : List Nat).length < 144
     ∧ readRegisters [] = .error (.tooShort 0 144))
    ∧ (144 ≤ (List.replicate 144 48).length
       ∧ (∀ b ∈ (List.replicate 144 48).take 144, isHexDigitB b = true)
       ∧ ∃ regs, readRegisters (List.replicate 144 48) = .ok regs
          ∧ (∀ i, i < 18 →
              regGet regs i
                = some ((beHexVal (((List.replicate 144 48).drop (i * 8)).take 8) : Nat) : Int))
          ∧ regs.PC
              = some ((beHexVal (((List.replicate 144 48).drop 136).take 8) : Nat) : Int)) :=
  ⟨⟨by decide, (readRegisters_spec []).1 (by decide)⟩,
   by decide, by decide,
   (readRegisters_spec (List.replicate 144 48)).2 (by decide) (by decide)⟩

-- ── writeMemory: chunking and M→X fallback (C5, C6) ────────────────────

/-- `chunk.toString('hex')`: two lowercase hex digits per byte. -/
def hexEncodeBytes (data : List Nat) : List Nat :=
  (data.map (fun b => padStartZero 2 (natToHex b))).flatten

/-- A memory-write wire command, keeping the structured fields of the
payload `M<hexaddr>,<hexlen>:<hexbytes>` / `X<hexaddr>,<hexlen>:<binary>`. -/
inductive WireCmd where
  | mPkt (addr len : Nat) (hexData : List Nat) : WireCmd
  | xPkt (addr len : Nat) (escData : List Nat) : WireCmd
  deriving DecidableEq

/-- Rendering of a structured write command to its payload string. -/
def renderWireCmd : WireCmd → List Nat
  | .mPkt a l h => 77 :: (natToHex a ++ (44 :: (natToHex l ++ (58 :: h))))
  | .xPkt a l e => 88 :: (natToHex a ++ (44 :: (natToHex l ++ (58 :: e))))

/-- One await outcome of `sendCommand` inside `writeMemory`: a reply
payload, or a promise rejection (timeout / socket failure). -/
inductive WmReply where
  | reply (r : List Nat) : WmReply
  | reject : WmReply
  deriving DecidableEq

/-- Wire/interaction events of `writeMemory`, in order. -/
inductive WmEvent where
  | sent (cmd : WireCmd) : WmEvent
  | gotReply (r : List Nat) : WmEvent
  | gotReject : WmEvent
  deriving DecidableEq

/-- Outcome of `writeMemory`: resolve, reject with the
`Memory write error at $addr: reply` error, or propagate a rejection of
the X-fallback `sendCommand`. -/
inductive WmResult where
  | ok : WmResult
  | writeError (addr : Nat) (r : List Nat) : WmResult
  | rejected : WmResult
  deriving DecidableEq

/-- The `writeMemory` loop, against a sequential reply oracle `f` (the
`n`-th awaited `sendCommand` gets `f n`); returns the event trace, the
outcome, and the next oracle index. Per chunk: send the textual `M`
command; if its promise rejects, send the binary `X` command for the
same chunk; a non-`OK` reply (from whichever command produced the reply)
aborts with the current chunk address; `OK` advances by the chunk
length. -/
def writeMemLoop (f : Nat → WmReply) (k addr : Nat) (data : List Nat) :
    List WmEvent × WmResult × Nat :=
  if hd : data.isEmpty then ([], .ok, k)
  else
    let clen := min 256 data.length
    let chunk := data.take 256
    let mCmd : WmEvent := .sent (.mPkt addr clen (hexEncodeBytes chunk))
    match f k with
    | .reply r =>
      if r = [79, 75] then
        let rest := writeMemLoop f (k + 1) (addr + clen) (data.drop 256)
        (mCmd :: .gotReply r :: rest.1, rest.2)
      else
        ([mCmd, .gotReply r], .writeError addr r, k + 1)
    | .reject =>
      let xCmd : WmEvent := .sent (.xPkt addr clen (escapeXPacketData chunk))
      match f (k + 1) with
      | .reply r =>
        if r = [79, 75] then
          let rest := writeMemLoop f (k + 2) (addr + clen) (data.drop 256)
          (mCmd :: .gotReject :: xCmd :: .gotReply r :: rest.1, rest.2)
        else
          ([mCmd, .gotReject, xCmd, .gotReply r], .writeError addr r, k + 2)
      | .reject =>
        ([mCmd, .gotReject, xCmd, .gotReject], .rejected, k + 2)
termination_by data.length
decreasing_by
  all_goals
    simp only [List.length_drop]
    have hpos : 0 < data.length := by
      cases data with
      | nil => simp at hd
      | cons a t => simp
    omega

/-- `writeMemory(addr, data)` = the loop from oracle index 0. -/
def writeMemory (f : Nat → WmReply) (addr : Nat) (data : List Nat) :
    List WmEvent × WmResult × Nat :=
  writeMemLoop f 0 addr data

/-- The chunk decomposition: (start address, chunk bytes) pairs. -/
def chunkList (addr : Nat) (data : List Nat) : List (Nat × List Nat) :=
  if data.isEmpty then []
  else (addr, data.take 256) :: chunkList (addr + min 256 data.length) (data.drop 256)
termination_by data.length
decreasing_by
  simp only [List.length_drop]
  rename_i hd
  have hpos : 0 < data.length := by
    cases data with
    | nil => simp at hd
    | cons a t => simp
  omega

/-- Commands sent in a trace, in order. -/
def sentCmds (tr : List WmEvent) : List WireCmd :=
  tr.filterMap (fun e => match e with | .sent c => some c | _ => none)

theorem writeMemLoop_nil (f : Nat → WmReply) (k addr : Nat) :
    writeMemLoop f k addr [] = ([], .ok, k) := by
  rw [writeMemLoop]
  simp

theorem writeMemLoop_m_ok (f : Nat → WmReply) (k addr : Nat) (data : List Nat)
    (hne : data ≠ []) (hok : f k = .reply [79, 75]) :
    writeMemLoop f k addr data
      = (.sent (.mPkt addr (min 256 data.length) (hexEncodeBytes (data.take 256)))
           :: .gotReply [79, 75]
           :: (writeMemLoop f (k + 1) (addr + min 256 data.length) (data.drop 256)).1,
         (writeMemLoop f (k + 1) (addr + min 256 data.length) (data.drop 256)).2) := by
  conv_lhs => rw [writeMemLoop]
  have hd : data.isEmpty = false := by
    cases data with
    | nil => exact absurd rfl hne
    | cons a t => rfl
  rw [dif_neg (by simp [hd])]
  rw [hok]
  simp

theorem writeMemLoop_m_err (f : Nat → WmReply) (k addr : Nat) (data : List Nat)
    (r : List Nat) (hne : data ≠ []) (hr : f k = .reply r) (hrn : r ≠ [79, 75]) :
    writeMemLoop f k addr data
      = ([.sent (.mPkt addr (min 256 data.length) (hexEncodeBytes (data.take 256))),
          .gotReply r],
         .writeError addr r, k + 1) := by
  conv_lhs => rw [writeMemLoop]
  have hd : data.isEmpty = false := by
    cases data with
    | nil => exact absurd rfl hne
    | cons a t => rfl
  rw [dif_neg (by simp [hd])]
  rw [hr]
  simp [hrn]

theorem writeMemLoop_x_ok (f : Nat → WmReply) (k addr : Nat) (data : List Nat)
    (hne : data ≠ []) (hrej : f k = .reject) (hok : f (k + 1) = .reply [79, 75]) :
    writeMemLoop f k addr data
      = (.sent (.mPkt addr (min 256 data.length) (hexEncodeBytes (data.take 256)))
           :: .gotReject
           :: .sent (.xPkt addr (min 256 data.length) (escapeXPacketData (data.take 256)))
           :: .gotReply [79, 75]
           :: (writeMemLoop f (k + 2) (addr + min 256 data.length) (data.drop 256)).1,
         (writeMemLoop f (k + 2) (addr + min 256 data.length) (data.drop 256)).2) := by
  conv_lhs => rw [writeMemLoop]
  have hd : data.isEmpty = false := by
    cases data with
    | nil => exact absurd rfl hne
    | cons a t => rfl
  rw [dif_neg (by simp [hd])]
  rw [hrej, hok]
  simp

theorem writeMemLoop_x_err (f : Nat → WmReply) (k addr : Nat) (data : List Nat)
    (r : List Nat) (hne : data ≠ []) (hrej : f k = .reject) (hr : f (k + 1) = .reply r)
    (hrn : r ≠ [79, 75]) :
    writeMemLoop f k addr data
      = ([.sent (.mPkt addr (min 256 data.length) (hexEncodeBytes (data.take 256))),
          .gotReject,
          .sent (.xPkt addr (min 256 data.length) (escapeXPacketData (data.take 256))),
          .gotReply r],
         .writeError addr r, k + 2) := by
  conv_lhs => rw [writeMemLoop]
  have hd : data.isEmpty = false := by
    cases data with
    | nil => exact absurd rfl hne
    | cons a t => rfl
  rw [dif_neg (by simp [hd])]
  rw [hrej, hr]
  simp [hrn]

theorem writeMemLoop_x_rej (f : Nat → WmReply) (k addr : Nat) (data : List Nat)
    (hne : data ≠ []) (hrej : f k = .reject) (hrej2 : f (k + 1) = .reject) :
    writeMemLoop f k addr data
      = ([.sent (.mPkt addr (min 256 data.length) (hexEncodeBytes (data.take 256))),
          .gotReject,
          .sent (.xPkt addr (min 256 data.length) (escapeXPacketData (data.take 256))),
          .gotReject],
         .rejected, k + 2) := by
  conv_lhs => rw [writeMemLoop]
  have hd : data.isEmpty = false := by
    cases data with
    | nil => exact absurd rfl hne
    | cons a t => rfl
  rw [dif_neg (by simp [hd])]
  rw [hrej, hrej2]

theorem chunkList_nil (addr : Nat) : chunkList addr [] = [] := by
  rw [chunkList]
  simp

theorem chunkList_cons (addr : Nat) (data : List Nat) (hne : data ≠ []) :
    chunkList addr data
      = (addr, data.take 256)
          :: chunkList (addr + min 256 data.length) (data.drop 256) := by
  conv_lhs => rw [chunkList]
  have hd : data.isEmpty = false := by
    cases data with
    | nil => exact absurd rfl hne
    | cons a t => rfl
  rw [if_neg (by simp [hd])]

theorem infix_cons_ext {α : Type} (a : α) (l t : List α)
    (h : List.IsInfix l t) : List.IsInfix l (a :: t) := by
  obtain ⟨s, u, rfl⟩ := h
  exact ⟨a :: s, u, rfl⟩

/-- Every X command in a `writeMemory` trace immediately follows the
rejected M attempt for the same chunk: the three-event window
`[sent M(a, l, hex chunk), gotReject, sent X(a, l, escape chunk)]`
occurs contiguously. -/
theorem xpkt_after_reject (n : Nat) : ∀ (data : List Nat), data.length ≤ n →
    ∀ (f : Nat → WmReply) (k addr a l : Nat) (e : List Nat),
    WmEvent.sent (.xPkt a l e) ∈ (writeMemLoop f k addr data).1 →
    ∃ chunk, e = escapeXPacketData chunk
      ∧ List.IsInfix
          [WmEvent.sent (.mPkt a l (hexEncodeBytes chunk)), WmEvent.gotReject,
           WmEvent.sent (.xPkt a l (escapeXPacketData chunk))]
          (writeMemLoop f k addr data).1 := by
  induction n with
  | zero =>
    intro data hlen f k addr a l e h
    have hnil : data = [] := List.eq_nil_of_length_eq_zero (by omega)
    subst hnil
    rw [writeMemLoop_nil] at h
    simp at h
  | succ n ihn =>
    intro data hlen f k addr a l e h
    by_cases hne : data = []
    · subst hne
      rw [writeMemLoop_nil] at h
      simp at h
    · have hdrop : (data.drop 256).length ≤ n := by
        rw [List.length_drop]
        have : 0 < data.length := List.length_pos.mpr hne
        omega
      cases hfk : f k with
      | reply r =>
        by_cases hr : r = [79, 75]
        · subst hr
          rw [writeMemLoop_m_ok f k addr data hne hfk] at h ⊢
          simp only [List.mem_cons] at h
          rcases h with h | h | h
          · exact absurd h (by simp)
          · exact absurd h (by simp)
          · obtain ⟨chunk, he, hinf⟩ := ihn (data.drop 256) hdrop f (k + 1) _ a l e h
            exact ⟨chunk, he, infix_cons_ext _ _ _ (infix_cons_ext _ _ _ hinf)⟩
        · rw [writeMemLoop_m_err f k addr data r hne hfk hr] at h
          simp at h
      | reject =>
        cases hfk2 : f (k + 1) with
        | reply r =>
          by_cases hr : r = [79, 75]
          · subst hr
            rw [writeMemLoop_x_ok f k addr data hne hfk hfk2] at h ⊢
            simp only [List.mem_cons] at h
            rcases h with h | h | h | h | h
            · exact absurd h (by simp)
            · exact absurd h (by simp)
            · refine ⟨data.take 256, ?_, ?_⟩
              · have := h
                simp only [WmEvent.sent.injEq, WireCmd.xPkt.injEq] at this
                exact this.2.2
              · have ha : a = addr ∧ l = min 256 data.length ∧ e = escapeXPacketData (data.take 256) := by
                  simpa [WmEvent.sent.injEq, WireCmd.xPkt.injEq] using h
                obtain ⟨rfl, rfl, rfl⟩ := ha
                exact ⟨[], _, rfl⟩
            · exact absurd h (by simp)
            · obtain ⟨chunk, he, hinf⟩ := ihn (data.drop 256) hdrop f (k + 2) _ a l e h
              exact ⟨chunk, he,
                infix_cons_ext _ _ _ (infix_cons_ext _ _ _
                  (infix_cons_ext _ _ _ (infix_cons_ext _ _ _ hinf)))⟩
          · rw [writeMemLoop_x_err f k addr data r hne hfk hfk2 hr] at h ⊢
            simp only [List.mem_cons] at h
            rcases h with h | h | h | h | h
            · exact absurd h (by simp)
            · exact absurd h (by simp)
            · have ha : a = addr ∧ l = min 256 data.length ∧ e = escapeXPacketData (data.take 256) := by
                simpa [WmEvent.sent.injEq, WireCmd.xPkt.injEq] using h
              obtain ⟨rfl, rfl, rfl⟩ := ha
              exact ⟨data.take 256, rfl, ⟨[], _, rfl⟩⟩
            · exact absurd h (by simp)
            · simp at h
        | reject =>
          rw [writeMemLoop_x_rej f k addr data hne hfk hfk2] at h ⊢
          simp only [List.mem_cons] at h
          rcases h with h | h | h | h | h
          · exact absurd h (by simp)
          · exact absurd h (by simp)
          · have ha : a = addr ∧ l = min 256 data.length ∧ e = escapeXPacketData (data.take 256) := by
              simpa [WmEvent.sent.injEq, WireCmd.xPkt.injEq] using h
            obtain ⟨rfl, rfl, rfl⟩ := ha
            exact ⟨data.take 256, rfl, ⟨[], _, rfl⟩⟩
          · exact absurd h (by simp)
          · simp at h

/-- `writeMemory` can produce a propagated rejection only when some
chunk's M `sendCommand` and the following X fallback both rejected. -/
theorem rejected_needs_two (n : Nat) : ∀ (data : List Nat), data.length ≤ n →
    ∀ (f : Nat → WmReply) (k addr : Nat),
    (writeMemLoop f k addr data).2.1 = .rejected →
    ∃ j, f j = .reject ∧ f (j + 1) = .reject := by
  induction n with
  | zero =>
    intro data hlen f k addr h
    have hnil : data = [] := List.eq_nil_of_length_eq_zero (by omega)
    subst hnil
    rw [writeMemLoop_nil] at h
    simp at h
  | succ n ihn =>
    intro data hlen f k addr h
    by_cases hne : data = []
    · subst hne
      rw [writeMemLoop_nil] at h
      simp at h
    · have hdrop : (data.drop 256).length ≤ n := by
        rw [List.length_drop]
        have : 0 < data.length := List.length_pos.mpr hne
        omega
      cases hfk : f k with
      | reply r =>
        by_cases hr : r = [79, 75]
        · subst hr
          rw [writeMemLoop_m_ok f k addr data hne hfk] at h
          exact ihn (data.drop 256) hdrop f (k + 1) _ h
        · rw [writeMemLoop_m_err f k addr data r hne hfk hr] at h
          simp at h
      | reject =>
        cases hfk2 : f (k + 1) with
        | reply r =>
          by_cases hr : r = [79, 75]
          · subst hr
            rw [writeMemLoop_x_ok f k addr data hne hfk hfk2] at h
            exact ihn (data.drop 256) hdrop f (k + 2) _ h
          · rw [writeMemLoop_x_err f k addr data r hne hfk hfk2 hr] at h
            simp at h
        | reject =>
          exact ⟨k, hfk, hfk2⟩

/-- C5 counterexample: a one-chunk write whose M command receives the
error reply `E01` is abandoned immediately — the result is the write
error and no X command is ever sent, contradicting the claim that an
error reply triggers the binary fallback before giving up. -/
theorem writeMemory_error_reply_skips_fallback :
    (writeMemory (fun _ => WmReply.reply [69, 48, 49]) 0 [0]).2.1
      = WmResult.writeError 0 [69, 48, 49]
    ∧ sentCmds (writeMemory (fun _ => WmReply.reply [69, 48, 49]) 0 [0]).1
      = [WireCmd.mPkt 0 1 (hexEncodeBytes [0])] := by
  have h := writeMemLoop_m_err (fun _ => WmReply.reply [69, 48, 49]) 0 0 [0]
    [69, 48, 49] (by decide) rfl (by decide)
  constructor
  · show (writeMemLoop (fun _ => WmReply.reply [69, 48, 49]) 0 0 [0]).2.1 = _
    rw [h]
  · show sentCmds (writeMemLoop (fun _ => WmReply.reply [69, 48, 49]) 0 0 [0]).1 = _
    rw [h]
    rfl

/-- C5 (amended): for every write and every chunk of it, if the chunk's
textual M command fails by promise rejection (timeout or socket
failure), the same chunk is retried once using the binary X command
immediately afterwards; if the M command instead receives an error
reply, the write is abandoned at once without the X fallback; and the
write rejects with a propagated rejection only when both a chunk's M
and its X fallback rejected. -/
theorem writeMemory_fallback_policy (f : Nat → WmReply) (k addr : Nat)
    (data : List Nat) :
    (∀ a l e, WmEvent.sent (.xPkt a l e) ∈ (writeMemLoop f k addr data).1 →
      ∃ chunk, e = escapeXPacketData chunk
        ∧ List.IsInfix
            [WmEvent.sent (.mPkt a l (hexEncodeBytes chunk)), WmEvent.gotReject,
             WmEvent.sent (.xPkt a l (escapeXPacketData chunk))]
            (writeMemLoop f k addr data).1)
    ∧ ((writeMemLoop f k addr data).2.1 = .rejected →
        ∃ j, f j = .reject ∧ f (j + 1) = .reject)
    ∧ (data ≠ [] → f k = .reject →
        ((writeMemLoop f k addr data).1).take 3
          = [.sent (.mPkt addr (min 256 data.length) (hexEncodeBytes (data.take 256))),
             .gotReject,
             .sent (.xPkt addr (min 256 data.length) (escapeXPacketData (data.take 256)))])
    ∧ (∀ r, data ≠ [] → f k = .reply r → r ≠ [79, 75] →
        writeMemLoop f k addr data
          = ([.sent (.mPkt addr (min 256 data.length) (hexEncodeBytes (data.take 256))),
              .gotReply r],
             .writeError addr r, k + 1)) := by
  refine ⟨?_, ?_, ?_, ?_⟩
  · intro a l e h
    exact xpkt_after_reject data.length data le_rfl f k addr a l e h
  · intro h
    exact rejected_needs_two data.length data le_rfl f k addr h
  · intro hne hrej
    cases hfk2 : f (k + 1) with
    | reply r =>
      by_cases hr : r = [79, 75]
      · subst hr
        rw [writeMemLoop_x_ok f k addr data hne hrej hfk2]
        rfl
      · rw [writeMemLoop_x_err f k addr data r hne hrej hfk2 hr]
        rfl
    | reject =>
      rw [writeMemLoop_x_rej f k addr data hne hrej hfk2]
      rfl
  · intro r hne hr hrn
    exact writeMemLoop_m_err f k addr data r hne hr hrn

theorem sentCmds_nil : sentCmds [] = [] := rfl

theorem sentCmds_sent (c : WireCmd) (t : List WmEvent) :
    sentCmds (.sent c :: t) = c :: sentCmds t := rfl

theorem sentCmds_gotReply (r : List Nat) (t : List WmEvent) :
    sentCmds (.gotReply r :: t) = sentCmds t := rfl

/-- With an all-`OK` oracle the write trace is exactly one
`[sent M, got OK]` block per chunk, in chunk order, and the write
resolves. -/
theorem writeMemLoop_all_ok (n : Nat) : ∀ (data : List Nat), data.length ≤ n →
    ∀ (f : Nat → WmReply), (∀ m, f m = .reply [79, 75]) → ∀ (k addr : Nat),
    writeMemLoop f k addr data
      = (((chunkList addr data).map (fun c =>
            [WmEvent.sent (.mPkt c.1 c.2.length (hexEncodeBytes c.2)),
             WmEvent.gotReply [79, 75]])).flatten,
         .ok, k + (chunkList addr data).length) := by
  induction n with
  | zero =>
    intro data hlen f hok k addr
    have hnil : data = [] := List.eq_nil_of_length_eq_zero (by omega)
    subst hnil
    rw [writeMemLoop_nil, chunkList_nil]
    simp
  | succ n ihn =>
    intro data hlen f hok k addr
    by_cases hne : data = []
    · subst hne
      rw [writeMemLoop_nil, chunkList_nil]
      simp
    · have hdrop : (data.drop 256).length ≤ n := by
        rw [List.length_drop]
        have : 0 < data.length := List.length_pos.mpr hne
        omega
      rw [writeMemLoop_m_ok f k addr data hne (hok k),
          ihn (data.drop 256) hdrop f hok (k + 1) (addr + min 256 data.length),
          chunkList_cons addr data hne]
      simp only [List.map_cons, List.flatten_cons, List.length_cons, List.length_take,
        Prod.mk.injEq, List.cons_append, List.nil_append, true_and]
      omega

/-- Position formula for the chunk decomposition: chunk `i` starts at
`addr + 256 * i` and holds the next (up to) 256 bytes. -/
theorem chunkList_get (i : Nat) : ∀ (addr : Nat) (data : List Nat),
    (chunkList addr data)[i]?
      = if 256 * i < data.length
        then some (addr + 256 * i, (data.drop (256 * i)).take 256) else none := by
  induction i with
  | zero =>
    intro addr data
    by_cases hne : data = []
    · subst hne
      rw [chunkList_nil]
      simp
    · rw [chunkList_cons addr data hne]
      have : 0 < data.length := List.length_pos.mpr hne
      simp only [List.getElem?_cons_zero, Nat.mul_zero]
      rw [if_pos (by omega)]
      simp
  | succ i ihi =>
    intro addr data
    by_cases hne : data = []
    · subst hne
      rw [chunkList_nil]
      simp
    · rw [chunkList_cons addr data hne]
      simp only [List.getElem?_cons_succ]
      rw [ihi (addr + min 256 data.length) (data.drop 256)]
      rw [List.length_drop]
      by_cases hlt : 256 * (i + 1) < data.length
      · rw [if_pos (by omega), if_pos hlt]
        have hmin : min 256 data.length = 256 := by omega
        rw [hmin, List.drop_drop]
        have h1 : addr + 256 + 256 * i = addr + 256 * (i + 1) := by ring
        have h2 : 256 + 256 * i = 256 * (i + 1) := by ring
        rw [h1, h2]
      · rw [if_neg (by omega), if_neg hlt]

/-- The chunk byte-lengths sum to the data length. -/
theorem chunkList_length_sum (n : Nat) : ∀ (data : List Nat), data.length ≤ n →
    ∀ (addr : Nat),
    ((chunkList addr data).map (fun c => c.2.length)).sum = data.length := by
  induction n with
  | zero =>
    intro data hlen addr
    have hnil : data = [] := List.eq_nil_of_length_eq_zero (by omega)
    subst hnil
    rw [chunkList_nil]
    simp
  | succ n ihn =>
    intro data hlen addr
    by_cases hne : data = []
    · subst hne
      rw [chunkList_nil]
      simp
    · have hdrop : (data.drop 256).length ≤ n := by
        rw [List.length_drop]
        have : 0 < data.length := List.length_pos.mpr hne
        omega
      rw [chunkList_cons addr data hne]
      simp only [List.map_cons, List.sum_cons, List.length_take]
      rw [ihn (data.drop 256) hdrop (addr + min 256 data.length), List.length_drop]
      omega

/-- The number of chunks is `ceil(N / 256)`. -/
theorem chunkList_count (n : Nat) : ∀ (data : List Nat), data.length ≤ n →
    ∀ (addr : Nat),
    (chunkList addr data).length = (data.length + 255) / 256 := by
  induction n with
  | zero =>
    intro data hlen addr
    have hnil : data = [] := List.eq_nil_of_length_eq_zero (by omega)
    subst hnil
    rw [chunkList_nil]
    simp
  | succ n ihn =>
    intro data hlen addr
    by_cases hne : data = []
    · subst hne
      rw [chunkList_nil]
      simp
    · have hpos : 0 < data.length := List.length_pos.mpr hne
      have hdrop : (data.drop 256).length ≤ n := by
        rw [List.length_drop]
        omega
      rw [chunkList_cons addr data hne]
      simp only [List.length_cons]
      rw [ihn (data.drop 256) hdrop (addr + min 256 data.length), List.length_drop]
      omega

/-- On the first non-`OK` reply — at chunk `k0`, after `k0` earlier `OK`
chunks — the write rejects with the failing chunk's address and exactly
the chunks `0..k0` were sent (no chunk `k0+1`, no rollback commands). -/
theorem writeMemLoop_fail_at (k0 : Nat) : ∀ (g : Nat → WmReply) (r0 : List Nat)
    (data : List Nat) (k addr : Nat),
    (∀ j, j < k0 → g (k + j) = .reply [79, 75]) →
    g (k + k0) = .reply r0 → r0 ≠ [79, 75] →
    256 * k0 < data.length →
    (writeMemLoop g k addr data).2.1 = .writeError (addr + 256 * k0) r0
    ∧ sentCmds (writeMemLoop g k addr data).1
      = ((chunkList addr data).take (k0 + 1)).map
          (fun c => WireCmd.mPkt c.1 c.2.length (hexEncodeBytes c.2)) := by
  induction k0 with
  | zero =>
    intro g r0 data k addr hpre hk0 hr0 hlt
    have hne : data ≠ [] := by
      intro hcontra
      subst hcontra
      simp at hlt
    have hg : g k = .reply r0 := by simpa using hk0
    rw [writeMemLoop_m_err g k addr data r0 hne hg hr0]
    rw [chunkList_cons addr data hne]
    constructor
    · simp
    · simp only [List.take_succ_cons, List.take_zero, List.map_cons, List.map_nil]
      rw [sentCmds_sent, sentCmds_gotReply, sentCmds_nil]
      simp
  | succ k0 ihk =>
    intro g r0 data k addr hpre hk0 hr0 hlt
    have hne : data ≠ [] := by
      intro hcontra
      subst hcontra
      simp at hlt
    have hlen : 256 < data.length := by omega
    have hmin : min 256 data.length = 256 := by omega
    have hg : g k = .reply [79, 75] := by
      have := hpre 0 (by omega)
      simpa using this
    rw [writeMemLoop_m_ok g k addr data hne hg]
    have ihr := ihk g r0 (data.drop 256) (k + 1) (addr + min 256 data.length)
      (fun j hj => by
        have h := hpre (j + 1) (by omega)
        have heq : k + 1 + j = k + (j + 1) := by omega
        rw [heq]
        exact h)
      (by
        have : k + 1 + k0 = k + (k0 + 1) := by omega
        rw [this]
        exact hk0)
      hr0
      (by
        rw [List.length_drop]
        omega)
    constructor
    · show (writeMemLoop g (k + 1) (addr + min 256 data.length) (data.drop 256)).2.1 = _
      rw [ihr.1, hmin]
      have : addr + 256 + 256 * k0 = addr + 256 * (k0 + 1) := by ring
      rw [this]
    · rw [sentCmds_sent, sentCmds_gotReply, ihr.2]
      rw [chunkList_cons addr data hne]
      simp [List.length_take]

theorem chunkList_300 :
    chunkList 8192 (List.replicate 300 0)
      = [(8192, List.replicate 256 0), (8448, List.replicate 44 0)] := by
  have h1 : (List.replicate 300 (0 : Nat)) ≠ [] :=
    List.ne_nil_of_length_pos (by rw [List.length_replicate]; norm_num)
  rw [chunkList_cons _ _ h1]
  simp only [List.length_replicate, List.take_replicate, List.drop_replicate]
  norm_num
  have h2 : (List.replicate 44 (0 : Nat)) ≠ [] :=
    List.ne_nil_of_length_pos (by rw [List.length_replicate]; norm_num)
  rw [chunkList_cons _ _ h2]
  simp only [List.length_replicate, List.take_replicate, List.drop_replicate]
  norm_num
  rw [chunkList_nil]

/-- C6: with chunk size 256, a write of N > 0 bytes at `addr` issues
exactly `ceil(N/256)` sequential `M` chunk commands — chunk `i` at
address `addr + 256*i` carrying the next up-to-256 bytes, lengths
summing to N — each acknowledged by `OK` before the next is sent; the
first non-`OK` reply, at chunk `k0`, rejects the write with chunk
`k0`'s address and chunks `k0+1`... are never issued (and no rollback
command is sent); in particular 300 bytes at 0x2000 become a 256-byte
write at 0x2000 followed by a 44-byte write at 0x2100. -/
theorem writeMemory_chunking (f : Nat → WmReply) (addr : Nat) (data : List Nat)
    (hok : ∀ m, f m = .reply [79, 75]) :
    writeMemory f addr data
      = (((chunkList addr data).map (fun c =>
            [WmEvent.sent (.mPkt c.1 c.2.length (hexEncodeBytes c.2)),
             WmEvent.gotReply [79, 75]])).flatten,
         .ok, (chunkList addr data).length)
    ∧ (chunkList addr data).length = (data.length + 255) / 256
    ∧ (∀ i, (chunkList addr data)[i]?
        = if 256 * i < data.length
          then some (addr + 256 * i, (data.drop (256 * i)).take 256) else none)
    ∧ ((chunkList addr data).map (fun c => c.2.length)).sum = data.length
    ∧ (∀ (g : Nat → WmReply) (r0 : List Nat) (k0 : Nat),
        (∀ j, j < k0 → g j = .reply [79, 75]) → g k0 = .reply r0 →
        r0 ≠ [79, 75] → 256 * k0 < data.length →
        (writeMemory g addr data).2.1 = .writeError (addr + 256 * k0) r0
        ∧ sentCmds (writeMemory g addr data).1
          = ((chunkList addr data).take (k0 + 1)).map
              (fun c => WireCmd.mPkt c.1 c.2.length (hexEncodeBytes c.2)))
    ∧ sentCmds (writeMemory (fun _ => WmReply.reply [79, 75]) 8192
        (List.replicate 300 0)).1
      = [WireCmd.mPkt 8192 256 (hexEncodeBytes (List.replicate 256 0)),
         WireCmd.mPkt 8448 44 (hexEncodeBytes (List.replicate 44 0))] := by
  refine ⟨?_, ?_, ?_, ?_, ?_, ?_⟩
  · have h := writeMemLoop_all_ok data.length data le_rfl f hok 0 addr
    show writeMemLoop f 0 addr data = _
    rw [h, Nat.zero_add]
  · exact chunkList_count data.length data le_rfl addr
  · intro i
    exact chunkList_get i addr data
  · exact chunkList_length_sum data.length data le_rfl addr
  · intro g r0 k0 hpre hk0 hr0 hlt
    have h := writeMemLoop_fail_at k0 g r0 data 0 addr
      (fun j hj => by simpa using hpre j hj) (by simpa using hk0) hr0 hlt
    constructor
    · show (writeMemLoop g 0 addr data).2.1 = _
      rw [h.1]
    · show sentCmds (writeMemLoop g 0 addr data).1 = _
      exact h.2
  · have hall := writeMemLoop_all_ok 300 (List.replicate 300 0)
      (le_of_eq (List.length_replicate 300 0))
      (fun _ => WmReply.reply [79, 75]) (fun _ => rfl) 0 8192
    show sentCmds (writeMemLoop (fun _ => WmReply.reply [79, 75]) 0 8192
      (List.replicate 300 0)).1 = _
    rw [hall, chunkList_300]
    simp only [List.map_cons, List.map_nil, List.flatten_cons, List.flatten_nil,
      List.cons_append, List.nil_append, List.append_nil, List.length_replicate]
    rw [sentCmds_sent, sentCmds_gotReply, sentCmds_sent, sentCmds_gotReply, sentCmds_nil]

/-- C6 witness: a one-byte write with an all-`OK` oracle. -/
theorem writeMemory_chunking_witness :
    (∀ m : Nat, (fun _ : Nat => WmReply.reply [79, 75]) m = WmReply.reply [79, 75])
    ∧ (writeMemory (fun _ : Nat => WmReply.reply [79, 75]) 0 [1]
        = (((chunkList 0 [1]).map (fun c =>
              [WmEvent.sent (.mPkt c.1 c.2.length (hexEncodeBytes c.2)),
               WmEvent.gotReply [79, 75]])).flatten,
           .ok, (chunkList 0 [1]).length)
       ∧ (chunkList 0 [1]).length = (([1] : List Nat).length + 255) / 256
       ∧ (∀ i, (chunkList 0 [1])[i]?
           = if 256 * i < ([1] : List Nat).length
             then some (0 + 256 * i, (([1] : List Nat).drop (256 * i)).take 256)
             else none)
       ∧ ((chunkList 0 [1]).map (fun c => c.2.length)).sum = ([1] : List Nat).length
       ∧ (∀ (g : Nat → WmReply) (r0 : List Nat) (k0 : Nat),
           (∀ j, j < k0 → g j = .reply [79, 75]) → g k0 = .reply r0 →
           r0 ≠ [79, 75] → 256 * k0 < ([1] : List Nat).length →
           (writeMemory g 0 [1]).2.1 = .writeError (0 + 256 * k0) r0
           ∧ sentCmds (writeMemory g 0 [1]).1
             = ((chunkList 0 [1]).take (k0 + 1)).map
                 (fun c => WireCmd.mPkt c.1 c.2.length (hexEncodeBytes c.2)))
       ∧ sentCmds (writeMemory (fun _ => WmReply.reply [79, 75]) 8192
           (List.replicate 300 0)).1
         = [WireCmd.mPkt 8192 256 (hexEncodeBytes (List.replicate 256 0)),
            WireCmd.mPkt 8448 44 (hexEncodeBytes (List.replicate 44 0))]) :=
  ⟨fun _ => rfl,
   writeMemory_chunking (fun _ => WmReply.reply [79, 75]) 0 [1] (fun _ => rfl)⟩


-- ── Incoming-stream framing (C3) ───────────────────────────────────────

/-- Tokens produced by the framing loop of `handleData`: a stripped ack
byte, a received nack byte, or an extracted `$payload#cs` packet. -/
inductive FrameTok where
  | ackRecv : FrameTok
  | nackRecv : FrameTok
  | pkt (payload cs : List Nat) : FrameTok
  deriving DecidableEq

/-- Fuel-indexed framing loop of `handleData` on the accumulated buffer
(each iteration consumes at least one byte, so `fuel = buf.length`
suffices): strip a leading `+`/`-`; otherwise discard everything before
the first `$` (`indexOf('$')`, here the `dropWhile`-to-`$`), and if a
`#` with two checksum chars follows (`indexOf('#')`, the
`dropWhile`-to-`#` split) extract the packet (payload = between `$` and
`#`) and continue after the checksum; otherwise stop, retaining the
(possibly incomplete) tail. -/
def processBufferF (fuel : Nat) (buf : List Nat) : List FrameTok × List Nat :=
  match fuel with
  | 0 => ([], buf)
  | fuel + 1 =>
    match buf with
    | [] => ([], [])
    | b :: rest =>
      if b = 43 then
        let r := processBufferF fuel rest
        (.ackRecv :: r.1, r.2)
      else if b = 45 then
        let r := processBufferF fuel rest
        (.nackRecv :: r.1, r.2)
      else
        let t := (b :: rest).dropWhile (fun c => !(c == 36))
        match t.dropWhile (fun c => !(c == 35)) with
        | 35 :: c1 :: c2 :: rest2 =>
          let r := processBufferF fuel rest2
          (.pkt ((t.takeWhile (fun c => !(c == 35))).drop 1) [c1, c2] :: r.1, r.2)
        | _ => ([], t)

/-- The framing loop of `handleData` on a buffer. -/
def processBuffer (buf : List Nat) : List FrameTok × List Nat :=
  processBufferF buf.length buf

/-- The `$`-anchored part of one framing iteration, on a buffer that is
empty or starts at the first `$`. -/
def pbDollar (t : List Nat) : List FrameTok × List Nat :=
  match t.dropWhile (fun c => !(c == 35)) with
  | 35 :: c1 :: c2 :: rest2 =>
    let r := processBuffer rest2
    (.pkt ((t.takeWhile (fun c => !(c == 35))).drop 1) [c1, c2] :: r.1, r.2)
  | _ => ([], t)

theorem dropWhile_head_false (p : Nat → Bool) :
    ∀ (l : List Nat) (x : Nat) (xs : List Nat),
    l.dropWhile p = x :: xs → p x = false := by
  intro l
  induction l with
  | nil => intro x xs h; simp at h
  | cons a t ih =>
    intro x xs h
    by_cases hp : p a
    · rw [List.dropWhile_cons_of_pos hp] at h
      exact ih x xs h
    · rw [List.dropWhile_cons_of_neg hp] at h
      cases h
      simpa using hp

/-- The packet-case tail is shorter than the whole buffer. -/
theorem pkt_tail_lt (b : Nat) (rest : List Nat) (c1 c2 : Nat) (rest2 : List Nat)
    (hsp : (((b :: rest).dropWhile (fun c => !(c == 36))).dropWhile
        (fun c => !(c == 35))) = 35 :: c1 :: c2 :: rest2) :
    rest2.length + 3 ≤ rest.length + 1 := by
  have h1 : rest2.length + 3
      = (((b :: rest).dropWhile (fun c => !(c == 36))).dropWhile
          (fun c => !(c == 35))).length := by
    rw [hsp]
    simp
  have h2 : (((b :: rest).dropWhile (fun c => !(c == 36))).dropWhile
      (fun c => !(c == 35))).length
        ≤ ((b :: rest).dropWhile (fun c => !(c == 36))).length :=
    (List.dropWhile_sublist _).length_le
  have h3 : ((b :: rest).dropWhile (fun c => !(c == 36))).length ≤ rest.length + 1 := by
    have := (@List.dropWhile_sublist Nat (b :: rest) (fun c => !(c == 36))).length_le
    simpa using this
  omega

/-- Fuel irrelevance: any fuel at least the buffer length computes the
same result. -/
theorem processBufferF_eq (f1 : Nat) : ∀ (f2 : Nat) (buf : List Nat),
    buf.length ≤ f1 → buf.length ≤ f2 →
    processBufferF f1 buf = processBufferF f2 buf := by
  induction f1 with
  | zero =>
    intro f2 buf h1 h2
    have hnil : buf = [] := List.eq_nil_of_length_eq_zero (by omega)
    subst hnil
    cases f2 <;> rfl
  | succ f1 ih =>
    intro f2 buf h1 h2
    cases buf with
    | nil => cases f2 <;> rfl
    | cons b rest =>
      cases f2 with
      | zero => simp at h2
      | succ f2 =>
        simp only [List.length_cons] at h1 h2
        show processBufferF (f1 + 1) (b :: rest) = processBufferF (f2 + 1) (b :: rest)
        rw [processBufferF, processBufferF]
        by_cases hb1 : b = 43
        · simp only [hb1, if_true]
          rw [ih f2 rest (by omega) (by omega)]
        · by_cases hb2 : b = 45
          · simp only [hb1, hb2, if_false, if_true]
            rw [ih f2 rest (by omega) (by omega)]
          · simp only [hb1, hb2, if_false]
            rcases hsp : (((b :: rest).dropWhile (fun c => !(c == 36))).dropWhile
                (fun c => !(c == 35))) with _ | ⟨x, _ | ⟨y, _ | ⟨z, tail⟩⟩⟩
            · rfl
            · have hx : x = 35 := by
                have := dropWhile_head_false _ _ _ _ hsp
                simpa using this
              subst hx
              rfl
            · have hx : x = 35 := by
                have := dropWhile_head_false _ _ _ _ hsp
                simpa using this
              subst hx
              rfl
            · have hx : x = 35 := by
                have := dropWhile_head_false _ _ _ _ hsp
                simpa using this
              subst hx
              have hlen := pkt_tail_lt b rest y z tail hsp
              simp only [ih f2 tail (by omega) (by omega)]

theorem processBuffer_nil : processBuffer [] = ([], []) := rfl

theorem processBuffer_ack (rest : List Nat) :
    processBuffer (43 :: rest)
      = (.ackRecv :: (processBuffer rest).1, (processBuffer rest).2) := rfl

theorem processBuffer_nack (rest : List Nat) :
    processBuffer (45 :: rest)
      = (.nackRecv :: (processBuffer rest).1, (processBuffer rest).2) := rfl

theorem processBuffer_else (b : Nat) (rest : List Nat)
    (hb1 : b ≠ 43) (hb2 : b ≠ 45) :
    processBuffer (b :: rest)
      = pbDollar ((b :: rest).dropWhile (fun c => !(c == 36))) := by
  show processBufferF (rest.length + 1) (b :: rest) = _
  rw [processBufferF]
  simp only [hb1, hb2, if_false]
  unfold pbDollar
  rcases hsp : (((b :: rest).dropWhile (fun c => !(c == 36))).dropWhile
      (fun c => !(c == 35))) with _ | ⟨x, _ | ⟨y, _ | ⟨z, tail⟩⟩⟩
  · rfl
  · have hx : x = 35 := by
      have := dropWhile_head_false _ _ _ _ hsp
      simpa using this
    subst hx
    rfl
  · have hx : x = 35 := by
      have := dropWhile_head_false _ _ _ _ hsp
      simpa using this
    subst hx
    rfl
  · have hx : x = 35 := by
      have := dropWhile_head_false _ _ _ _ hsp
      simpa using this
    subst hx
    have hlen := pkt_tail_lt b rest y z tail hsp
    simp only [processBufferF_eq rest.length tail.length tail (by omega) le_rfl]
    rfl

theorem pbDollar_pkt (t : List Nat) (c1 c2 : Nat) (rest2 : List Nat)
    (h : t.dropWhile (fun c => !(c == 35)) = 35 :: c1 :: c2 :: rest2) :
    pbDollar t
      = (.pkt ((t.takeWhile (fun c => !(c == 35))).drop 1) [c1, c2]
           :: (processBuffer rest2).1,
         (processBuffer rest2).2) := by
  unfold pbDollar
  rw [h]

theorem pbDollar_nohash (t : List Nat)
    (h : t.dropWhile (fun c => !(c == 35)) = []) : pbDollar t = ([], t) := by
  unfold pbDollar
  rw [h]

theorem pbDollar_short1 (t : List Nat) (x : Nat)
    (h : t.dropWhile (fun c => !(c == 35)) = [x]) : pbDollar t = ([], t) := by
  unfold pbDollar
  rw [h]
  split
  · rename_i heq
    simp at heq
  · rfl

theorem pbDollar_short2 (t : List Nat) (x y : Nat)
    (h : t.dropWhile (fun c => !(c == 35)) = [x, y]) : pbDollar t = ([], t) := by
  unfold pbDollar
  rw [h]
  split
  · rename_i heq
    simp at heq
  · rfl

/-- Packet-token test. -/
def isPktTok : FrameTok → Bool
  | .pkt _ _ => true
  | _ => false

/-- The packet tokens of a token sequence (ack/nack control bytes
removed). -/
def pktToks (toks : List FrameTok) : List FrameTok := toks.filter isPktTok

theorem pktToks_ack (l : List FrameTok) : pktToks (.ackRecv :: l) = pktToks l := by
  simp [pktToks, List.filter_cons, isPktTok]

theorem pktToks_nack (l : List FrameTok) : pktToks (.nackRecv :: l) = pktToks l := by
  simp [pktToks, List.filter_cons, isPktTok]

theorem pktToks_pkt (p cs : List Nat) (l : List FrameTok) :
    pktToks (.pkt p cs :: l) = .pkt p cs :: pktToks l := by
  simp [pktToks, List.filter_cons, isPktTok]

theorem pktToks_append (l1 l2 : List FrameTok) :
    pktToks (l1 ++ l2) = pktToks l1 ++ pktToks l2 := by
  simp [pktToks, List.filter_append]

theorem dropWhile_append_of_ne_nil (p : Nat → Bool) (t c : List Nat)
    (h : t.dropWhile p ≠ []) :
    (t ++ c).dropWhile p = t.dropWhile p ++ c := by
  rw [List.dropWhile_append]
  rw [if_neg (by simpa [List.isEmpty_iff] using h)]

theorem dropWhile_append_of_nil (p : Nat → Bool) (t c : List Nat)
    (h : t.dropWhile p = []) :
    (t ++ c).dropWhile p = c.dropWhile p := by
  rw [List.dropWhile_append]
  rw [if_pos (by simp [List.isEmpty_iff, h])]

theorem takeWhile_append_of_ne_nil (p : Nat → Bool) (t c : List Nat)
    (h : t.dropWhile p ≠ []) :
    (t ++ c).takeWhile p = t.takeWhile p := by
  rw [List.takeWhile_append]
  rw [if_neg]
  intro hcontra
  apply h
  have hsum : (t.takeWhile p).length + (t.dropWhile p).length = t.length := by
    conv_rhs => rw [← List.takeWhile_append_dropWhile p t]
    rw [List.length_append]
  have : (t.dropWhile p).length = 0 := by omega
  exact List.eq_nil_of_length_eq_zero this

/-- Leading garbage and control bytes contribute no packet tokens: the
packet tokens and the leftover of a buffer are those of its suffix from
the first `$`. -/
theorem processBuffer_drop_garbage (s : List Nat) :
    pktToks (processBuffer s).1
        = pktToks (pbDollar (s.dropWhile (fun c => !(c == 36)))).1
    ∧ (processBuffer s).2 = (pbDollar (s.dropWhile (fun c => !(c == 36)))).2 := by
  induction s with
  | nil => exact ⟨rfl, rfl⟩
  | cons b rest ih =>
    by_cases hb1 : b = 43
    · subst hb1
      rw [processBuffer_ack, List.dropWhile_cons_of_pos (by decide)]
      exact ⟨by rw [pktToks_ack]; exact ih.1, ih.2⟩
    · by_cases hb2 : b = 45
      · subst hb2
        rw [processBuffer_nack, List.dropWhile_cons_of_pos (by decide)]
        exact ⟨by rw [pktToks_nack]; exact ih.1, ih.2⟩
      · rw [processBuffer_else b rest hb1 hb2]
        exact ⟨rfl, rfl⟩

/-- Incremental framing: processing `buf ++ c` equals processing `buf`,
then processing the leftover with `c` appended — up to the packet
tokens and final leftover (stray `+`/`-` bytes inside discarded garbage
may be classified differently across the split). -/
theorem processBuffer_append (n : Nat) : ∀ (buf : List Nat), buf.length ≤ n →
    ∀ (c : List Nat),
    pktToks (processBuffer (buf ++ c)).1
      = pktToks (processBuffer buf).1
          ++ pktToks (processBuffer ((processBuffer buf).2 ++ c)).1
    ∧ (processBuffer (buf ++ c)).2 = (processBuffer ((processBuffer buf).2 ++ c)).2 := by
  induction n with
  | zero =>
    intro buf hlen c
    have hnil : buf = [] := List.eq_nil_of_length_eq_zero (by omega)
    subst hnil
    rw [processBuffer_nil]
    simp [pktToks]
  | succ n ihn =>
    intro buf hlen c
    cases buf with
    | nil =>
      rw [processBuffer_nil]
      simp [pktToks]
    | cons b rest =>
      simp only [List.length_cons] at hlen
      by_cases hb1 : b = 43
      · subst hb1
        show pktToks (processBuffer (43 :: (rest ++ c))).1 = _ ∧
          (processBuffer (43 :: (rest ++ c))).2 = _
        rw [processBuffer_ack, processBuffer_ack, pktToks_ack, pktToks_ack]
        exact ihn rest (by omega) c
      · by_cases hb2 : b = 45
        · subst hb2
          show pktToks (processBuffer (45 :: (rest ++ c))).1 = _ ∧
            (processBuffer (45 :: (rest ++ c))).2 = _
          rw [processBuffer_nack, processBuffer_nack, pktToks_nack, pktToks_nack]
          exact ihn rest (by omega) c
        · show pktToks (processBuffer (b :: (rest ++ c))).1 = _ ∧
            (processBuffer (b :: (rest ++ c))).2 = _
          rw [processBuffer_else b (rest ++ c) hb1 hb2,
              processBuffer_else b rest hb1 hb2]
          have hcons : (b :: (rest ++ c)) = (b :: rest) ++ c := rfl
          rw [hcons]
          rcases htE : (b :: rest).dropWhile (fun c => !(c == 36)) with _ | ⟨x, u⟩
          · -- no '$' in buf: garbage discarded entirely
            rw [dropWhile_append_of_nil _ _ _ htE, pbDollar_nohash [] (by rfl)]
            simp only [List.nil_append]
            have hA := processBuffer_drop_garbage c
            constructor
            · rw [← hA.1]
              simp [pktToks]
            · exact hA.2.symm
          · -- buf has a '$': t = 36 :: u
            have hx : x = 36 := by
              have := dropWhile_head_false _ _ _ _ htE
              simpa using this
            subst hx
            rw [dropWhile_append_of_ne_nil _ _ _ (by rw [htE]; simp)]
            rw [htE]
            rcases hsp : (36 :: u).dropWhile (fun c => !(c == 35))
              with _ | ⟨y, _ | ⟨z, _ | ⟨w, rest2⟩⟩⟩
            · -- no '#': incomplete, stays buffered
              rw [pbDollar_nohash _ hsp]
              have hdrop : ((36 :: u) ++ c).dropWhile (fun c => !(c == 35))
                  = c.dropWhile (fun c => !(c == 35)) :=
                dropWhile_append_of_nil _ _ _ hsp
              have h36 : processBuffer ((36 :: u) ++ c)
                  = pbDollar ((36 :: u) ++ c) := by
                show processBuffer (36 :: (u ++ c)) = _
                rw [processBuffer_else 36 (u ++ c) (by decide) (by decide)]
                rw [List.dropWhile_cons_of_neg (by decide), List.cons_append]
              constructor
              · show pktToks (pbDollar (36 :: (u ++ c))).1
                    = pktToks ([] : List FrameTok)
                        ++ pktToks (processBuffer ((36 :: u) ++ c)).1
                rw [h36]
                simp [pktToks]
              · show (pbDollar (36 :: (u ++ c))).2 = (processBuffer ((36 :: u) ++ c)).2
                rw [h36]
                simp
            · -- '#' but 0 checksum chars
              have hy : y = 35 := by
                have := dropWhile_head_false _ _ _ _ hsp
                simpa using this
              subst hy
              rw [pbDollar_short1 _ _ hsp]
              have h36 : processBuffer ((36 :: u) ++ c)
                  = pbDollar ((36 :: u) ++ c) := by
                show processBuffer (36 :: (u ++ c)) = _
                rw [processBuffer_else 36 (u ++ c) (by decide) (by decide)]
                rw [List.dropWhile_cons_of_neg (by decide), List.cons_append]
              constructor
              · show pktToks (pbDollar (36 :: (u ++ c))).1
                    = pktToks ([] : List FrameTok)
                        ++ pktToks (processBuffer ((36 :: u) ++ c)).1
                rw [h36]
                simp [pktToks]
              · show (pbDollar (36 :: (u ++ c))).2 = (processBuffer ((36 :: u) ++ c)).2
                rw [h36]
                simp
            · -- '#' but 1 checksum char
              have hy : y = 35 := by
                have := dropWhile_head_false _ _ _ _ hsp
                simpa using this
              subst hy
              rw [pbDollar_short2 _ _ _ hsp]
              have h36 : processBuffer ((36 :: u) ++ c)
                  = pbDollar ((36 :: u) ++ c) := by
                show processBuffer (36 :: (u ++ c)) = _
                rw [processBuffer_else 36 (u ++ c) (by decide) (by decide)]
                rw [List.dropWhile_cons_of_neg (by decide), List.cons_append]
              constructor
              · show pktToks (pbDollar (36 :: (u ++ c))).1
                    = pktToks ([] : List FrameTok)
                        ++ pktToks (processBuffer ((36 :: u) ++ c)).1
                rw [h36]
                simp [pktToks]
              · show (pbDollar (36 :: (u ++ c))).2 = (processBuffer ((36 :: u) ++ c)).2
                rw [h36]
                simp
            · -- complete packet in buf
              have hy : y = 35 := by
                have := dropWhile_head_false _ _ _ _ hsp
                simpa using this
              subst hy
              have hne35 : (36 :: u).dropWhile (fun c => !(c == 35)) ≠ [] := by
                rw [hsp]
                simp
              have hdrop2 : ((36 :: u) ++ c).dropWhile (fun c => !(c == 35))
                  = 35 :: z :: w :: (rest2 ++ c) := by
                rw [dropWhile_append_of_ne_nil _ _ _ hne35, hsp]
                rfl
              have htake : ((36 :: u) ++ c).takeWhile (fun c => !(c == 35))
                  = (36 :: u).takeWhile (fun c => !(c == 35)) :=
                takeWhile_append_of_ne_nil _ _ _ hne35
              rw [pbDollar_pkt _ _ _ _ hdrop2, pbDollar_pkt _ _ _ _ hsp, htake]
              have hlen2 : rest2.length + 3 ≤ rest.length + 1 := by
                have := pkt_tail_lt b rest z w rest2 (by rw [htE]; exact hsp)
                omega
              have ihr := ihn rest2 (by omega) c
              rw [pktToks_pkt, pktToks_pkt]
              constructor
              · rw [ihr.1]
                simp
              · exact ihr.2

-- ── handleData: framing + dispatch, and re-chunking invariance ─────────

/-- Processing of one framing token: a stripped `+`; a `-` (NACK log);
or a packet — checksum verified against the two checksum chars, a nack
written on mismatch (unless no-ack mode), an ack written and the payload
dispatched on match. -/
def handleTok (st : MuxState) (tok : FrameTok) : MuxState × List RxEvent :=
  match tok with
  | .ackRecv => (st, [.ackRecv])
  | .nackRecv => (st, [.nackRecv])
  | .pkt payload cs =>
    if checksumOk cs payload then
      let d := dispatchPayload st payload
      (d.1, (if st.noAckMode then [] else [.sendAck]) ++ [d.2])
    else
      (st, if st.noAckMode then [] else [.sendNack])

def handleToks (st : MuxState) (toks : List FrameTok) : MuxState × List RxEvent :=
  match toks with
  | [] => (st, [])
  | tk :: rest =>
    let s1 := handleTok st tk
    let s2 := handleToks s1.1 rest
    (s2.1, s1.2 ++ s2.2)

/-- The whole receive-side state of `GdbProtocol`: the accumulation
buffer `pendingData` plus the multiplexer state. -/
structure GdbState where
  pendingData : List Nat
  mux : MuxState
  deriving DecidableEq

/-- `handleData(data)`: append the chunk to `pendingData`, run the
framing loop, and classify/dispatch each extracted token. -/
def handleData (st : GdbState) (chunk : List Nat) : GdbState × List RxEvent :=
  let pr := processBuffer (st.pendingData ++ chunk)
  let hs := handleToks st.mux pr.1
  (⟨pr.2, hs.1⟩, hs.2)

/-- Feed several chunks through `handleData` in order. -/
def handleDataList (st : GdbState) (chunks : List (List Nat)) :
    GdbState × List RxEvent :=
  match chunks with
  | [] => (st, [])
  | c :: rest =>
    let s1 := handleData st c
    let s2 := handleDataList s1.1 rest
    (s2.1, s1.2 ++ s2.2)

/-- Ack/nack control-byte classification events. -/
def isCtlEvent : RxEvent → Bool
  | .ackRecv => true
  | .nackRecv => true
  | _ => false

/-- Events other than received-control-byte classifications. -/
def nonCtlEvents (evs : List RxEvent) : List RxEvent :=
  evs.filter (fun e => !(isCtlEvent e))

/-- The framing loop applied per chunk, threading the leftover buffer. -/
def processChunksToks (buf : List Nat) (chunks : List (List Nat)) :
    List FrameTok × List Nat :=
  match chunks with
  | [] => ([], buf)
  | c :: rest =>
    let p := processBuffer (buf ++ c)
    let q := processChunksToks p.2 rest
    (p.1 ++ q.1, q.2)

theorem handleToks_append (t1 : List FrameTok) : ∀ (st : MuxState) (t2 : List FrameTok),
    handleToks st (t1 ++ t2)
      = ((handleToks (handleToks st t1).1 t2).1,
         (handleToks st t1).2 ++ (handleToks (handleToks st t1).1 t2).2) := by
  induction t1 with
  | nil =>
    intro st t2
    simp [handleToks]
  | cons tk rest ih =>
    intro st t2
    show handleToks st (tk :: (rest ++ t2)) = _
    rw [handleToks]
    rw [ih (handleTok st tk).1 t2]
    rw [handleToks]
    simp [List.append_assoc]

theorem dispatch_not_ctl (st : MuxState) (p : List Nat) :
    isCtlEvent (dispatchPayload st p).2 = false := by
  unfold dispatchPayload
  by_cases h1 : isConsolePacket p
  · simp [h1, isCtlEvent]
  · by_cases h2 : (isStopReplyPacket p && st.packetResolvers.isEmpty) = true
    · simp [h1, h2, isCtlEvent]
    · rcases hq : st.packetResolvers with _ | ⟨r, rest⟩
      · have hstop : isStopReplyPacket p = false := by
          rw [hq] at h2
          simpa using h2
        simp [h1, h2, hq, hstop, isCtlEvent]
      · simp [h1, h2, hq, isCtlEvent]

theorem handleTok_pkt_not_ctl (st : MuxState) (p cs : List Nat) :
    ∀ e ∈ (handleTok st (.pkt p cs)).2, isCtlEvent e = false := by
  intro e he
  simp only [handleTok] at he
  by_cases hck : checksumOk cs p
  · rw [if_pos hck] at he
    simp only [List.mem_append] at he
    rcases he with he | he
    · by_cases hna : st.noAckMode
      · simp [hna] at he
      · simp [hna] at he
        subst he
        rfl
    · have : e = (dispatchPayload st p).2 := by simpa using he
      subst this
      exact dispatch_not_ctl st p
  · rw [if_neg hck] at he
    by_cases hna : st.noAckMode
    · simp [hna] at he
    · simp [hna] at he
      subst he
      rfl

/-- Control tokens do not change the multiplexer state, and their events
are exactly what the non-control filter removes. -/
theorem handleToks_filterCtl (toks : List FrameTok) : ∀ (st : MuxState),
    (handleToks st toks).1 = (handleToks st (pktToks toks)).1
    ∧ nonCtlEvents (handleToks st toks).2 = (handleToks st (pktToks toks)).2 := by
  induction toks with
  | nil => intro st; exact ⟨rfl, rfl⟩
  | cons tk rest ih =>
    intro st
    match tk with
    | .ackRecv =>
      rw [handleToks, pktToks_ack]
      show ((handleToks st rest).1, [RxEvent.ackRecv] ++ (handleToks st rest).2).1 = _
        ∧ nonCtlEvents (([RxEvent.ackRecv] ++ (handleToks st rest).2)) = _
      constructor
      · exact (ih st).1
      · show nonCtlEvents (RxEvent.ackRecv :: (handleToks st rest).2) = _
        unfold nonCtlEvents
        rw [List.filter_cons_of_neg (by decide)]
        exact (ih st).2
    | .nackRecv =>
      rw [handleToks, pktToks_nack]
      constructor
      · exact (ih st).1
      · show nonCtlEvents (RxEvent.nackRecv :: (handleToks st rest).2) = _
        unfold nonCtlEvents
        rw [List.filter_cons_of_neg (by decide)]
        exact (ih st).2
    | .pkt p cs =>
      rw [handleToks, pktToks_pkt, handleToks]
      constructor
      · exact (ih (handleTok st (.pkt p cs)).1).1
      · show nonCtlEvents ((handleTok st (.pkt p cs)).2
            ++ (handleToks (handleTok st (.pkt p cs)).1 rest).2) = _
        unfold nonCtlEvents
        rw [List.filter_append]
        have h1 : (handleTok st (.pkt p cs)).2.filter (fun e => !(isCtlEvent e))
            = (handleTok st (.pkt p cs)).2 := by
          apply List.filter_eq_self.mpr
          intro e he
          rw [handleTok_pkt_not_ctl st p cs e he]
          rfl
        rw [h1]
        have h2 := (ih (handleTok st (.pkt p cs)).1).2
        unfold nonCtlEvents at h2
        rw [h2]

/-- Chunk-threaded framing agrees with whole-buffer framing up to packet
tokens, with the same final leftover. -/
theorem processChunksToks_flatten (chunks : List (List Nat)) : ∀ (buf : List Nat),
    chunks ≠ [] →
    pktToks (processChunksToks buf chunks).1
        = pktToks (processBuffer (buf ++ chunks.flatten)).1
    ∧ (processChunksToks buf chunks).2
        = (processBuffer (buf ++ chunks.flatten)).2 := by
  induction chunks with
  | nil => intro buf hne; exact absurd rfl hne
  | cons c rest ih =>
    intro buf _
    cases rest with
    | nil =>
      have hfl : ([c] : List (List Nat)).flatten = c := by simp
      constructor
      · show pktToks ((processBuffer (buf ++ c)).1 ++ ([] : List FrameTok)) = _
        rw [hfl, List.append_nil]
      · show (processBuffer (buf ++ c)).2 = _
        rw [hfl]
    | cons c2 rest2 =>
      have ihr := ih (processBuffer (buf ++ c)).2 (by simp)
      have happ := processBuffer_append (buf ++ c).length (buf ++ c) le_rfl
        ((c2 :: rest2).flatten)
      constructor
      · show pktToks ((processBuffer (buf ++ c)).1
            ++ (processChunksToks (processBuffer (buf ++ c)).2 (c2 :: rest2)).1) = _
        rw [pktToks_append, ihr.1]
        have hassoc : buf ++ (c :: c2 :: rest2).flatten
            = (buf ++ c) ++ (c2 :: rest2).flatten := by
          simp [List.flatten_cons, List.append_assoc]
        rw [hassoc, happ.1]
      · show (processChunksToks (processBuffer (buf ++ c)).2 (c2 :: rest2)).2 = _
        rw [ihr.2]
        have hassoc : buf ++ (c :: c2 :: rest2).flatten
            = (buf ++ c) ++ (c2 :: rest2).flatten := by
          simp [List.flatten_cons, List.append_assoc]
        rw [hassoc, happ.2]

/-- `handleDataList` decomposes into chunk-threaded framing followed by
token dispatch. -/
theorem handleDataList_decomp (chunks : List (List Nat)) : ∀ (st : GdbState),
    (handleDataList st chunks).1.pendingData
        = (processChunksToks st.pendingData chunks).2
    ∧ (handleDataList st chunks).1.mux
        = (handleToks st.mux (processChunksToks st.pendingData chunks).1).1
    ∧ (handleDataList st chunks).2
        = (handleToks st.mux (processChunksToks st.pendingData chunks).1).2 := by
  induction chunks with
  | nil => intro st; exact ⟨rfl, rfl, rfl⟩
  | cons c rest ih =>
    intro st
    have ihr := ih (handleData st c).1
    have hpd : (handleData st c).1.pendingData = (processBuffer (st.pendingData ++ c)).2 := rfl
    have hmx : (handleData st c).1.mux
        = (handleToks st.mux (processBuffer (st.pendingData ++ c)).1).1 := rfl
    rw [hpd, hmx] at ihr
    have happ := handleToks_append (processBuffer (st.pendingData ++ c)).1 st.mux
      (processChunksToks (processBuffer (st.pendingData ++ c)).2 rest).1
    refine ⟨?_, ?_, ?_⟩
    · show (handleDataList (handleData st c).1 rest).1.pendingData
          = (processChunksToks (processBuffer (st.pendingData ++ c)).2 rest).2
      rw [ihr.1]
    · show (handleDataList (handleData st c).1 rest).1.mux
          = (handleToks st.mux ((processBuffer (st.pendingData ++ c)).1
              ++ (processChunksToks (processBuffer (st.pendingData ++ c)).2 rest).1)).1
      rw [happ, ihr.2.1]
    · show (handleData st c).2 ++ (handleDataList (handleData st c).1 rest).2
          = (handleToks st.mux ((processBuffer (st.pendingData ++ c)).1
              ++ (processChunksToks (processBuffer (st.pendingData ++ c)).2 rest).1)).2
      rw [happ, ihr.2.2]
      rfl

/-- C3 (amended): the receive path is invariant under re-chunking up to
the classification of stray `+`/`-` bytes inside discarded garbage: for
every initial state and every non-empty split of a byte sequence into
chunks, feeding the chunks one `handleData` call at a time yields
exactly the same final state (buffer and protocol state) and the same
sequence of non-control events (packets extracted, checksum verdicts
and wire acks, dispatch decisions) as feeding the whole sequence in one
call; and an incomplete packet never blocks — `handleData` is total and
simply retains the unterminated suffix in the buffer. -/
theorem handleData_rechunk (st : GdbState) (chunks : List (List Nat))
    (hne : chunks ≠ []) :
    (handleDataList st chunks).1 = (handleData st chunks.flatten).1
    ∧ nonCtlEvents (handleDataList st chunks).2
        = nonCtlEvents (handleData st chunks.flatten).2 := by
  have hd := handleDataList_decomp chunks st
  have hL2 := processChunksToks_flatten chunks st.pendingData hne
  have hf1 := handleToks_filterCtl (processChunksToks st.pendingData chunks).1 st.mux
  have hf2 := handleToks_filterCtl (processBuffer (st.pendingData ++ chunks.flatten)).1 st.mux
  constructor
  · have hpd : (handleDataList st chunks).1.pendingData
        = (handleData st chunks.flatten).1.pendingData := by
      rw [hd.1, hL2.2]
      rfl
    have hmux : (handleDataList st chunks).1.mux
        = (handleData st chunks.flatten).1.mux := by
      rw [hd.2.1, hf1.1, hL2.1]
      show (handleToks st.mux (pktToks (processBuffer (st.pendingData ++ chunks.flatten)).1)).1 = _
      rw [← hf2.1]
      rfl
    have hext : ∀ (a b : GdbState),
        a.pendingData = b.pendingData → a.mux = b.mux → a = b := by
      intro a b h1 h2
      cases a
      cases b
      simp_all
    exact hext _ _ hpd hmux
  · rw [hd.2.2, hf1.2, hL2.1]
    show (handleToks st.mux (pktToks (processBuffer (st.pendingData ++ chunks.flatten)).1)).2 = _
    rw [← hf2.2]
    rfl

/-- C3 counterexample: the byte sequence `"A-"` fed whole discards both
bytes as garbage before a `$` and produces no events; split as
`["A", "-"]` the second call sees the `-` at the front of the buffer and
classifies it as a received NACK — the full classified event sequences
differ, refuting the claim for the ack/nack classifications. -/
theorem handleData_rechunk_counterexample :
    ¬ ((handleDataList ⟨[], ⟨[], none, false, false⟩⟩ [[65], [45]]).2
        = (handleData ⟨[], ⟨[], none, false, false⟩⟩ [65, 45]).2) := by
  decide

/-- C3 witness: a packet split across two chunks is classified exactly
as when fed whole. -/
theorem handleData_rechunk_witness :
    (([[36, 103, 35], [54, 55]] : List (List Nat)) ≠ [])
    ∧ ((handleDataList ⟨[], ⟨[], none, false, false⟩⟩ [[36, 103, 35], [54, 55]]).1
        = (handleData ⟨[], ⟨[], none, false, false⟩⟩
            [[36, 103, 35], [54, 55]].flatten).1
       ∧ nonCtlEvents (handleDataList ⟨[], ⟨[], none, false, false⟩⟩
            [[36, 103, 35], [54, 55]]).2
        = nonCtlEvents (handleData ⟨[], ⟨[], none, false, false⟩⟩
            [[36, 103, 35], [54, 55]].flatten).2) :=
  ⟨by decide,
   handleData_rechunk ⟨[], ⟨[], none, false, false⟩⟩ [[36, 103, 35], [54, 55]]
     (by decide)⟩
